import Mathlib

/-!
# Verification of the PETA network core against its specification

Shallow embedding of the PETA repository's network core:

* `pkg/utils/iputils/netfilter.go` — iptables chain-name hashing,
* `pkg/network/ip/ipmasq_nftables_linux.go` — nftables masquerade rule
  lifecycle, the CIDR `Range` allocator and `RangeSize`,
* `pkg/network/ipam/bitmap.go` — the bit allocation store,
* `pkg/network/ip/ipforward_linux.go` — sysctl IP-forwarding enablement,
* `pkg/network/bridge/bridge.go` — VLAN trunk parsing.

Go strings and byte slices are modelled as lists of bytes (`GoStr`),
Go `*big.Int` values (always non-negative here) as `Nat`, and Go `int`
values that can be negative as `Int`.  Functions that can panic return
`Except GoPanic _`.
-/

/-- A Go `string` / `[]byte`: a finite sequence of bytes. -/
abbrev GoStr := List Nat

/-- A Go runtime panic carrying its message. -/
structure GoPanic where
  msg : GoStr
deriving DecidableEq, Repr

/-- The bytes of an ASCII string literal (used to transcribe Go string literals). -/
def ascii (s : String) : GoStr := s.data.map Char.toNat

namespace SHA512

/-! ## SHA-512 (crypto/sha512), FIPS 180-4

The Go code hashes with `crypto/sha512`; we embed the algorithm itself.
64-bit words are `Nat` values taken modulo `2^64`. -/

/-- Addition modulo `2^64`. -/
def add64 (a b : Nat) : Nat := (a + b) % 2 ^ 64

/-- Right rotation of a 64-bit word. -/
def rotr (x n : Nat) : Nat := ((x >>> n) ||| (x <<< (64 - n))) % 2 ^ 64

/-- FIPS 180-4 `Σ0`. -/
def bigSigma0 (x : Nat) : Nat := rotr x 28 ^^^ rotr x 34 ^^^ rotr x 39

/-- FIPS 180-4 `Σ1`. -/
def bigSigma1 (x : Nat) : Nat := rotr x 14 ^^^ rotr x 18 ^^^ rotr x 41

/-- FIPS 180-4 `σ0`. -/
def smallSigma0 (x : Nat) : Nat := rotr x 1 ^^^ rotr x 8 ^^^ (x >>> 7)

/-- FIPS 180-4 `σ1`. -/
def smallSigma1 (x : Nat) : Nat := rotr x 19 ^^^ rotr x 61 ^^^ (x >>> 6)

/-- `Ch(x,y,z)`; complement is taken within 64 bits. -/
def ch (x y z : Nat) : Nat := (x &&& y) ^^^ ((x ^^^ (2 ^ 64 - 1)) &&& z)

/-- `Maj(x,y,z)`. -/
def maj (x y z : Nat) : Nat := (x &&& y) ^^^ (x &&& z) ^^^ (y &&& z)

/-- The 80 SHA-512 round constants. -/
def K : List Nat := [
  4794697086780616226, 8158064640168781261, 13096744586834688815, 16840607885511220156,
  4131703408338449720, 6480981068601479193, 10538285296894168987, 12329834152419229976,
  15566598209576043074, 1334009975649890238, 2608012711638119052, 6128411473006802146,
  8268148722764581231, 9286055187155687089, 11230858885718282805, 13951009754708518548,
  16472876342353939154, 17275323862435702243, 1135362057144423861, 2597628984639134821,
  3308224258029322869, 5365058923640841347, 6679025012923562964, 8573033837759648693,
  10970295158949994411, 12119686244451234320, 12683024718118986047, 13788192230050041572,
  14330467153632333762, 15395433587784984357, 489312712824947311, 1452737877330783856,
  2861767655752347644, 3322285676063803686, 5560940570517711597, 5996557281743188959,
  7280758554555802590, 8532644243296465576, 9350256976987008742, 10552545826968843579,
  11727347734174303076, 12113106623233404929, 14000437183269869457, 14369950271660146224,
  15101387698204529176, 15463397548674623760, 17586052441742319658, 1182934255886127544,
  1847814050463011016, 2177327727835720531, 2830643537854262169, 3796741975233480872,
  4115178125766777443, 5681478168544905931, 6601373596472566643, 7507060721942968483,
  8399075790359081724, 8693463985226723168, 9568029438360202098, 10144078919501101548,
  10430055236837252648, 11840083180663258601, 13761210420658862357, 14299343276471374635,
  14566680578165727644, 15097957966210449927, 16922976911328602910, 17689382322260857208,
  500013540394364858, 748580250866718886, 1242879168328830382, 1977374033974150939,
  2944078676154940804, 3659926193048069267, 4368137639120453308, 4836135668995329356,
  5532061633213252278, 6448918945643986474, 6902733635092675308, 7801388544844847127]

/-- The eight-word working state / hash value. -/
structure Hash8 where
  a : Nat
  b : Nat
  c : Nat
  d : Nat
  e : Nat
  f : Nat
  g : Nat
  h : Nat
deriving DecidableEq, Repr

/-- The SHA-512 initial hash value. -/
def H0 : Hash8 :=
  ⟨7640891576956012808, 13503953896175478587, 4354685564936845355, 11912009170470909681,
   5840696475078001361, 11170449401992604703, 2270897969802886507, 6620516959819538809⟩

/-- One compression round; `wk` is the pair (message-schedule word, round constant). -/
def round (st : Hash8) (wk : Nat × Nat) : Hash8 :=
  let t1 := add64 st.h (add64 (bigSigma1 st.e) (add64 (ch st.e st.f st.g) (add64 wk.2 wk.1)))
  let t2 := add64 (bigSigma0 st.a) (maj st.a st.b st.c)
  ⟨add64 t1 t2, st.a, st.b, st.c, add64 st.d t1, st.e, st.f, st.g⟩

/-- Group a byte list into big-endian 64-bit words (8 bytes each). -/
def bytesToWordsBE : List Nat → List Nat
  | b0 :: b1 :: b2 :: b3 :: b4 :: b5 :: b6 :: b7 :: rest =>
      (((((((b0 * 256 + b1) * 256 + b2) * 256 + b3) * 256 + b4) * 256 + b5) * 256 + b6) * 256
        + b7) :: bytesToWordsBE rest
  | _ => []

/-- The next message-schedule word from the 16 most recent ones. -/
def nextW (w : List Nat) : Nat :=
  let n := w.length
  add64 (smallSigma1 (w.getD (n - 2) 0))
    (add64 (w.getD (n - 7) 0) (add64 (smallSigma0 (w.getD (n - 15) 0)) (w.getD (n - 16) 0)))

/-- Extend the message schedule by `k` further words. -/
def extendW : Nat → List Nat → List Nat
  | 0, w => w
  | k + 1, w => extendW k (w ++ [nextW w])

/-- Compress one 128-byte block into the running hash state. -/
def processBlock (st : Hash8) (block : List Nat) : Hash8 :=
  let w := extendW 64 (bytesToWordsBE block)
  let r := (w.zip K).foldl round st
  ⟨add64 st.a r.a, add64 st.b r.b, add64 st.c r.c, add64 st.d r.d,
   add64 st.e r.e, add64 st.f r.f, add64 st.g r.g, add64 st.h r.h⟩

/-- Process `n` consecutive 128-byte blocks. -/
def processBlocks : Nat → Hash8 → List Nat → Hash8
  | 0, st, _ => st
  | n + 1, st, msg => processBlocks n (processBlock st (msg.take 128)) (msg.drop 128)

/-- A 128-bit big-endian encoding (16 bytes) of a number. -/
def be16Bytes (n : Nat) : List Nat :=
  [n >>> 120 % 256, n >>> 112 % 256, n >>> 104 % 256, n >>> 96 % 256,
   n >>> 88 % 256, n >>> 80 % 256, n >>> 72 % 256, n >>> 64 % 256,
   n >>> 56 % 256, n >>> 48 % 256, n >>> 40 % 256, n >>> 32 % 256,
   n >>> 24 % 256, n >>> 16 % 256, n >>> 8 % 256, n % 256]

/-- SHA-512 padding: `0x80`, zeros to 112 mod 128, then the 128-bit bit length. -/
def pad (msg : List Nat) : List Nat :=
  let l := msg.length
  let k := (128 - (l + 17) % 128) % 128
  msg ++ [0x80] ++ List.replicate k 0 ++ be16Bytes (l * 8)

/-- Big-endian bytes of one 64-bit word. -/
def wordBytesBE (x : Nat) : List Nat :=
  [x >>> 56 % 256, x >>> 48 % 256, x >>> 40 % 256, x >>> 32 % 256,
   x >>> 24 % 256, x >>> 16 % 256, x >>> 8 % 256, x % 256]

/-- The SHA-512 digest (64 bytes) of a byte string. -/
def sha512 (msg : List Nat) : List Nat :=
  let p := pad msg
  let st := processBlocks (p.length / 128) H0 p
  wordBytesBE st.a ++ wordBytesBE st.b ++ wordBytesBE st.c ++ wordBytesBE st.d ++
    wordBytesBE st.e ++ wordBytesBE st.f ++ wordBytesBE st.g ++ wordBytesBE st.h

end SHA512

namespace IPUtils

/-! ## pkg/utils/iputils/netfilter.go -/

/-- The ASCII byte of one lowercase hex digit, as produced by Go `%x`. -/
def hexDigitByte (n : Nat) : Nat := if n < 10 then 48 + n else 87 + n

/-- Go `fmt.Sprintf("%x", bytes)`: two lowercase hex digits per byte. -/
def hexEncode (l : List Nat) : GoStr :=
  (l.map (fun b => [hexDigitByte (b / 16), hexDigitByte (b % 16)])).flatten

/-- `maxChainLen = 28`. -/
def maxChainLen : Nat := 28

/-- `chainPrefix = "PETA-"`. -/
def chainPfx : GoStr := ascii "PETA-"

/-- `MaxHashLen = sha512.Size * 2 = 128`. -/
def MaxHashLen : Nat := 128

/-- `MustFormatHashWithPrefix(length, prefix, toHash)`: a string of the given
length beginning with the prefix, filled with the hex SHA-512 of `toHash`;
panics when the prefix is too long or the length exceeds `MaxHashLen`. -/
def MustFormatHashWithPrefix (length : Nat) (pfx : GoStr) (toHash : GoStr) :
    Except GoPanic GoStr :=
  if pfx.length ≥ length ∨ length > MaxHashLen then .error ⟨ascii "invalid length"⟩
  else .ok ((pfx ++ hexEncode (SHA512.sha512 toHash)).take length)

/-- `MustFormatChainNameWithPrefix(name, id, prefix)`. -/
def MustFormatChainNameWithPrefix (name id pfx : GoStr) : Except GoPanic GoStr :=
  MustFormatHashWithPrefix maxChainLen (chainPfx ++ pfx) (name ++ id)

/-- `FormatChainName(name, id)`. -/
def FormatChainName (name id : GoStr) : Except GoPanic GoStr :=
  MustFormatChainNameWithPrefix name id []

/-- A lowercase hexadecimal ASCII digit (`0`–`9`, `a`–`f`). -/
def isHexDigitByte (b : Nat) : Prop := (48 ≤ b ∧ b ≤ 57) ∨ (97 ≤ b ∧ b ≤ 102)

/-- The chain name exactly as claim C2 words it: the literal prefix `PETA-`
followed by 28 hexadecimal characters of the SHA-512 hash of `name + id`.
Stated from the claim, for comparison with `FormatChainName`. -/
def chainNameClaimC2 (name id : GoStr) : GoStr :=
  chainPfx ++ (hexEncode (SHA512.sha512 (name ++ id))).take 28

end IPUtils

namespace IPAM

/-! ## pkg/network/ipam/bitmap.go — the Bit Allocation Store

`allocated` is a non-negative `*big.Int`, embedded as `Nat`; `Bit` is
`Nat.testBit`, `SetBit(·,·,1)` is `setBit` below. -/

/-- `big.Int.SetBit(n, i, 1)`. -/
def setBit (n i : Nat) : Nat := n ||| 2 ^ i

/-- `big.Int.SetBit(n, i, 0)`; only used when bit `i` of `n` is set,
where clearing coincides with xor. -/
def clearBit (n i : Nat) : Nat := n ^^^ 2 ^ i

/-- `AllocationBitmap` (the `strategy` field is always `randomScanStrategy{}`,
see `NewAllocationMap`, so it is left implicit; the `lock` only serializes
access and has no effect on the sequential semantics). -/
structure AllocationBitmap where
  max : Nat
  rangeSpec : GoStr
  count : Nat
  allocated : Nat
deriving DecidableEq, Repr

/-- `NewAllocationMap(max, rangeSpec)`. -/
def NewAllocationMap (max : Nat) (rangeSpec : GoStr) : AllocationBitmap :=
  ⟨max, rangeSpec, 0, 0⟩

/-- `AllocationBitmap.Allocate(offset)`: reserve a specific bit. -/
def Allocate (r : AllocationBitmap) (offset : Nat) : AllocationBitmap × Bool :=
  if r.allocated.testBit offset then (r, false)
  else ({ r with allocated := setBit r.allocated offset, count := r.count + 1 }, true)

/-- Go `math/rand/v2`'s `rand.IntN(n)`: panics when `n <= 0`, otherwise returns
a pseudo-random value in `[0, n)`.  The ambient randomness is supplied as the
extra argument `rnd`, reduced modulo `n`. -/
def randIntN (n : Nat) (rnd : Nat) : Except GoPanic Nat :=
  if n = 0 then .error ⟨ascii "invalid argument to IntN"⟩ else .ok (rnd % n)

/-- `randomScanStrategy.AllocateBit(allocated, max, count)`: after the
`count > max` exhaustion check, pick a random start and scan forward
(wrapping) for the first clear bit. -/
def AllocateBit (allocated maxB count rnd : Nat) : Except GoPanic (Option Nat) :=
  if count > maxB then .ok none
  else
    match randIntN maxB rnd with
    | .error p => .error p
    | .ok offset =>
      match (List.range maxB).find? (fun i => !allocated.testBit ((offset + i) % maxB)) with
      | some i => .ok (some ((offset + i) % maxB))
      | none => .ok none

/-- `AllocationBitmap.AllocateNext()`. -/
def AllocateNext (r : AllocationBitmap) (rnd : Nat) :
    Except GoPanic (AllocationBitmap × Option Nat) :=
  match AllocateBit r.allocated r.max r.count rnd with
  | .error p => .error p
  | .ok none => .ok (r, none)
  | .ok (some next) =>
    .ok ({ r with count := r.count + 1, allocated := setBit r.allocated next }, some next)

/-- `AllocationBitmap.Release(offset)`. -/
def Release (r : AllocationBitmap) (offset : Nat) : AllocationBitmap :=
  if r.allocated.testBit offset then
    { r with allocated := clearBit r.allocated offset, count := r.count - 1 }
  else r

/-- The offsets emitted by `AllocationBitmap.ForEach`, in ascending order
(the Go loop walks the words of `allocated` from least significant upward;
every set bit `i` of `n` satisfies `i < n`, so `range n` covers them all). -/
def bitIndices (n : Nat) : List Nat := (List.range n).filter (fun i => n.testBit i)

/-- `AllocationBitmap.Has(offset)`. -/
def Has (r : AllocationBitmap) (offset : Nat) : Bool := r.allocated.testBit offset

/-- `AllocationBitmap.Free()` (Go `int` subtraction). -/
def Free (r : AllocationBitmap) : Int := (r.max : Int) - (r.count : Int)

/-- `big.Int.Bytes()`: minimal big-endian bytes (empty for zero); the fuel
argument of the auxiliary function only bounds the recursion depth. -/
def natToBytesAux : Nat → Nat → List Nat
  | 0, _ => []
  | fuel + 1, n => if n = 0 then [] else natToBytesAux fuel (n / 256) ++ [n % 256]

/-- `big.Int.Bytes()` on a non-negative value. -/
def natToBytes (n : Nat) : List Nat := natToBytesAux n n

/-- `big.NewInt(0).SetBytes(data)`: big-endian bytes to a non-negative value. -/
def bytesToNat (data : List Nat) : Nat := data.foldl (fun acc b => acc * 256 + b) 0

/-- `countBits(n)`: the number of set bits (the Go loop sums
`bits.OnesCount64` over the words of `n`); fuel-based binary recursion. -/
def countBitsAux : Nat → Nat → Nat
  | 0, _ => 0
  | fuel + 1, n => if n = 0 then 0 else n % 2 + countBitsAux fuel (n / 2)

/-- `countBits(n)`. -/
def countBits (n : Nat) : Nat := countBitsAux n n

/-- `AllocationBitmap.Snapshot()`. -/
def Snapshot (r : AllocationBitmap) : GoStr × List Nat :=
  (r.rangeSpec, natToBytes r.allocated)

/-- `AllocationBitmap.Restore(rangeSpec, data)`: returns the post-state and
an error when the tag mismatches (in which case the state is unchanged). -/
def Restore (r : AllocationBitmap) (rangeSpec : GoStr) (data : List Nat) :
    AllocationBitmap × Option GoStr :=
  if r.rangeSpec ≠ rangeSpec then
    (r, some (ascii "the provided range does not match the current range"))
  else
    ({ r with allocated := bytesToNat data, count := countBits (bytesToNat data) }, none)

/-- The bitmap's documented invariant: `count` equals the popcount of
`allocated`, and every allocated bit lies below `max`. -/
def Inv (r : AllocationBitmap) : Prop :=
  r.count = countBits r.allocated ∧ r.allocated < 2 ^ r.max

/-- Run `AllocateNext` once per supplied random value, collecting the
successfully returned offsets in order. -/
def runAllocs (r : AllocationBitmap) : List Nat → Except GoPanic (AllocationBitmap × List Nat)
  | [] => .ok (r, [])
  | rnd :: rest =>
    match AllocateNext r rnd with
    | .error p => .error p
    | .ok (r', none) => runAllocs r' rest
    | .ok (r', some off) =>
      match runAllocs r' rest with
      | .error p => .error p
      | .ok (rf, offs) => .ok (rf, off :: offs)

/-! ## pkg/network/ip/ipmasq_nftables_linux.go — CIDR `Range` (package ipam)

IP addresses are embedded as the numeric value of their 16-byte form
(`bigForIP` uses `ip.To16()`, so an IPv4 address `a.b.c.d` is the value
`0xffff·2^32 + a·2^24 + b·2^16 + c·2^8 + d`).  A `*net.IPNet` is its
(canonical-mask) `(ip, ones, bits)` triple, `Mask.Size() = (ones, bits)`. -/

/-- A `*net.IPNet` with a canonical mask. -/
structure IPNet where
  ip : Nat
  ones : Nat
  bits : Nat
deriving DecidableEq, Repr

/-- The 16-byte value of an IPv4 address `a.b.c.d` (`net.IP.To16`). -/
def v4 (a b c d : Nat) : Nat := 0xffff * 2 ^ 32 + (a * 2 ^ 24 + b * 2 ^ 16 + c * 2 ^ 8 + d)

/-- `net.IPNet.Contains(ip)`: the address agrees with the subnet address on
all but the `bits - ones` host bits.  (Go compares in 4-byte form for IPv4
subnets; over the 16-byte values used here that is the same comparison,
since the `::ffff:` prefix is part of the compared bits.) -/
def IPNet.containsIP (s : IPNet) (ip : Nat) : Bool :=
  ip >>> (s.bits - s.ones) == s.ip >>> (s.bits - s.ones)

/-- `RangeSize(subnet)` (an `int64`; all values produced fit in `Nat`,
given `ones ≤ bits ≤ 128`, so no overflow is modelled). -/
def RangeSize (subnet : IPNet) : Nat :=
  if (subnet.bits = 32 ∧ subnet.bits - subnet.ones ≥ 31) ∨
      (subnet.bits = 128 ∧ subnet.bits - subnet.ones ≥ 127) then 0
  else if subnet.bits = 128 ∧ subnet.bits - subnet.ones ≥ 16 then 2 ^ 16
  else 2 ^ (subnet.bits - subnet.ones)

/-- `addIPOffset(base, offset)`: the byte string of `base + offset` padded on
the left and cut to its last 16 bytes, i.e. the sum modulo `2^128`. -/
def addIPOffset (base : Nat) (offset : Nat) : Nat := (base + offset) % 2 ^ 128

/-- `big.Int.Int64()` as implemented by `math/big`: the low 64 bits of the
absolute value, reinterpreted as a two's-complement `int64`, negated for
negative values. -/
def int64OfBigInt (x : Int) : Int :=
  if x < 0 then
    -(if x.natAbs % 2 ^ 64 < 2 ^ 63 then ((x.natAbs % 2 ^ 64 : Nat) : Int)
      else ((x.natAbs % 2 ^ 64 : Nat) : Int) - 2 ^ 64)
  else
    (if x.natAbs % 2 ^ 64 < 2 ^ 63 then ((x.natAbs % 2 ^ 64 : Nat) : Int)
     else ((x.natAbs % 2 ^ 64 : Nat) : Int) - 2 ^ 64)

/-- `calculateIPOffset(base, ip) = int(sub(bigForIP(ip), base).Int64())`. -/
def calculateIPOffset (base : Nat) (ip : Nat) : Int :=
  int64OfBigInt ((ip : Int) - (base : Int))

/-- The CIDR `Range`. -/
structure Range where
  net : IPNet
  base : Nat
  max : Nat
  alloc : AllocationBitmap
deriving DecidableEq, Repr

/-- Stands for `cidr.String()`, the `rangeSpec` tag of the backing bitmap;
only equality of tags is ever consumed, so an injective encoding of the
`(ip, ones, bits)` triple is a faithful model of the formatted string. -/
def cidrTag (c : IPNet) : GoStr := [c.ip, c.ones, c.bits]

/-- `NewCIDRRange(cidr)`: excludes the network base and broadcast when the
subnet has more than 2 addresses (`size = max(0, size-2)`, `base += 1`). -/
def NewCIDRRange (cidr : IPNet) : Range :=
  let base := cidr.ip
  let size := RangeSize cidr
  if size > 2 then
    { net := cidr, base := base + 1, max := size - 2,
      alloc := NewAllocationMap (size - 2) (cidrTag cidr) }
  else
    { net := cidr, base := base, max := size,
      alloc := NewAllocationMap size (cidrTag cidr) }

/-- `Range.contains(ip)`: `(true, offset)` when the IP is in the usable
window, `(false, 0)` otherwise. -/
def Range.contains (r : Range) (ip : Nat) : Bool × Nat :=
  if ¬r.net.containsIP ip then (false, 0)
  else
    if calculateIPOffset r.base ip < 0 ∨ calculateIPOffset r.base ip ≥ (r.max : Int)
    then (false, 0)
    else (true, (calculateIPOffset r.base ip).toNat)

/-- The errors a `Range` operation can return. -/
inductive RangeError
  | errNotInRange
  | errAllocated
  | errFull
deriving DecidableEq, Repr

/-- `Range.Allocate(ip)`. -/
def Range.Allocate (r : Range) (ip : Nat) : Range × Option RangeError :=
  if !(r.contains ip).1 then (r, some .errNotInRange)
  else
    if !(IPAM.Allocate r.alloc (r.contains ip).2).2 then (r, some .errAllocated)
    else ({ r with alloc := (IPAM.Allocate r.alloc (r.contains ip).2).1 }, none)

/-- `Range.AllocateNext()`: `none` in the result is `ErrFull`. -/
def Range.AllocateNextR (r : Range) (rnd : Nat) : Except GoPanic (Range × Option Nat) :=
  match AllocateNext r.alloc rnd with
  | .error p => .error p
  | .ok (a, none) => .ok ({ r with alloc := a }, none)
  | .ok (a, some offset) => .ok ({ r with alloc := a }, some (addIPOffset r.base offset))

/-- `Range.Release(ip)`. -/
def Range.Release (r : Range) (ip : Nat) : Range :=
  if (r.contains ip).1 then { r with alloc := IPAM.Release r.alloc (r.contains ip).2 }
  else r

/-- `Range.Has(ip)`. -/
def Range.Has (r : Range) (ip : Nat) : Bool :=
  if !(r.contains ip).1 then false else IPAM.Has r.alloc (r.contains ip).2

/-- `GetIndexedIP(subnet, index)`. -/
def GetIndexedIP (subnet : IPNet) (index : Nat) : Except GoStr Nat :=
  if ¬subnet.containsIP (addIPOffset subnet.ip index) then
    .error (ascii "can't generate IP with index from subnet. subnet too small")
  else .ok (addIPOffset subnet.ip index)

/-- The IPs handed to the callback of `Range.ForEach`, in emission order:
one per allocated offset, reconstructed as `GetIndexedIP(net, offset+1)`
with the error ignored (`none` stands for the `nil` IP produced then). -/
def Range.forEachIPs (r : Range) : List (Option Nat) :=
  (bitIndices r.alloc.allocated).map (fun off => (GetIndexedIP r.net (off + 1)).toOption)

/-- The `Range` states reachable from `NewCIDRRange` through the public
mutators (any interleaving of `Allocate`, `AllocateNext`, `Release`). -/
inductive RangeReachable : Range → Prop
  | new (cidr : IPNet) : RangeReachable (NewCIDRRange cidr)
  | allocate {r : Range} (ip : Nat) :
      RangeReachable r → RangeReachable (r.Allocate ip).1
  | allocateNext {r r' : Range} {rnd : Nat} {res : Option Nat} :
      RangeReachable r → r.AllocateNextR rnd = .ok (r', res) → RangeReachable r'
  | release {r : Range} (ip : Nat) :
      RangeReachable r → RangeReachable (r.Release ip)

/-- The structural invariant every reachable `Range` satisfies: the backing
bitmap satisfies its invariant and is sized to `max`, and `base`/`max`
relate to the subnet as `NewCIDRRange` set them up. -/
def RangeInv (r : Range) : Prop :=
  Inv r.alloc ∧ r.alloc.max = r.max ∧
  (2 < RangeSize r.net → r.base = r.net.ip + 1 ∧ r.max = RangeSize r.net - 2) ∧
  (¬2 < RangeSize r.net → r.base = r.net.ip ∧ r.max = RangeSize r.net)

/-- The subnet address is canonical: its host bits are zero (as produced by
`net.ParseCIDR`, which masks the address). -/
def IPNet.aligned (s : IPNet) : Prop := s.ip % 2 ^ (s.bits - s.ones) = 0

end IPAM

namespace IPForward

/-! ## pkg/network/ip/ipforward_linux.go -/

/-- The outcome of one `os.ReadFile` call: returned bytes and error. -/
structure ReadResult where
  content : GoStr
  err : Option GoStr
deriving DecidableEq, Repr

/-- Membership in Go's ASCII whitespace set (`bytes.TrimSpace`; the sysctl
contents involved are ASCII). -/
def isSpaceByte (b : Nat) : Bool :=
  b == 9 || b == 10 || b == 11 || b == 12 || b == 13 || b == 32

/-- `bytes.TrimSpace`. -/
def trimSpace (l : GoStr) : GoStr :=
  ((l.dropWhile isSpaceByte).reverse.dropWhile isSpaceByte).reverse

/-- The externally visible effect of `echo1` on the sysctl file. -/
inductive Echo1Effect
  | noWrite
  | write (data : GoStr)
deriving DecidableEq, Repr

/-- `echo1(f)`: the source takes the early no-write return only when
`err != nil` **and** the trimmed content equals `"1"`; in every other case
it falls through to `os.WriteFile(f, []byte("1"), 0o644)`. -/
def echo1 (read : ReadResult) : Echo1Effect :=
  if read.err ≠ none ∧ trimSpace read.content = ascii "1" then .noWrite
  else .write (ascii "1")

/-- The sysctl path used by `EnableIP4Forward`. -/
def ip4ForwardPath : GoStr := ascii "/proc/sys/net/ipv4/ip_forward"

/-- The sysctl path used by `EnableIP6Forward`. -/
def ip6ForwardPath : GoStr := ascii "/proc/sys/net/ipv6/conf/all/forwarding"

/-- `EnableIP4Forward()`, parameterized by the read outcome of
`/proc/sys/net/ipv4/ip_forward`. -/
def EnableIP4Forward (read : ReadResult) : Echo1Effect := echo1 read

/-- `EnableIP6Forward()`, parameterized by the read outcome of
`/proc/sys/net/ipv6/conf/all/forwarding`. -/
def EnableIP6Forward (read : ReadResult) : Echo1Effect := echo1 read

end IPForward

namespace Bridge

/-! ## pkg/network/bridge/bridge.go — VLAN trunk parsing -/

/-- One `VlanTrunk` configuration entry (pointer fields become `Option`). -/
structure VlanTrunk where
  minID : Option Int
  maxID : Option Int
  id : Option Int
deriving DecidableEq, Repr

/-- Insert an id into an ascending duplicate-free list.  Models adding a key
to `vlanMap` (a set); the final `sort.Slice(..., <)` over the distinct keys
yields exactly this ascending order. -/
def insertId (v : Int) : List Int → List Int
  | [] => [v]
  | x :: xs => if v < x then v :: x :: xs else if v = x then x :: xs else x :: insertId v xs

/-- `for v := lo; v <= hi; v++ { vlanMap[v] = struct{}{} }`, with `n` the
iteration count `hi - lo + 1`. -/
def insertRange (lo : Int) : Nat → List Int → List Int
  | 0, acc => acc
  | n + 1, acc => insertRange (lo + 1) n (insertId lo acc)

/-- The `switch` block of the `collectVlanTrunk` loop body: the min/max
pair of one entry. -/
def collectMinMax (acc : List Int) : Option Int → Option Int → Except GoStr (List Int)
  | some m, some M =>
    if m ≤ 0 ∨ m > 4094 then .error (ascii "incorrect trunk minID parameter")
    else if M ≤ 0 ∨ M > 4094 then .error (ascii "incorrect trunk maxID parameter")
    else if M < m then .error (ascii "minID is greater than maxID in trunk parameter")
    else .ok (insertRange m (M + 1 - m).toNat acc)
  | none, some _ =>
    .error (ascii "minID and maxID should be configured simultaneously, minID is missing")
  | some _, none =>
    .error (ascii "minID and maxID should be configured simultaneously, maxID is missing")
  | none, none => .ok acc

/-- The trailing `if item.ID != nil` block of the loop body. -/
def collectSingleId (acc : List Int) : Option Int → Except GoStr (List Int)
  | none => .ok acc
  | some v =>
    if v ≤ 0 ∨ v > 4094 then .error (ascii "incorrect trunk id parameter")
    else .ok (insertId v acc)

/-- One iteration of the `collectVlanTrunk` loop body over `item` (the
switch, then — unless it returned an error — the single-id check). -/
def collectOne (acc : List Int) (item : VlanTrunk) : Except GoStr (List Int) :=
  match collectMinMax acc item.minID item.maxID with
  | .error e => .error e
  | .ok acc2 => collectSingleId acc2 item.id

/-- `collectVlanTrunk(vlanTrunk)`: `none` models the `nil` slice (both as
input and as the `len(vlanMap) == 0` result). -/
def collectVlanTrunk : Option (List VlanTrunk) → Except GoStr (Option (List Int))
  | none => .ok none
  | some items =>
    match items.foldlM collectOne [] with
    | .error e => .error e
    | .ok l => .ok (if l = [] then none else some l)

/-- A trunk entry claim C8 calls invalid: a present `minID`, `maxID` or
single `id` outside `1–4094`, or `minID` greater than `maxID`. -/
def claimBadEntry (t : VlanTrunk) : Prop :=
  (∃ m, t.minID = some m ∧ (m < 1 ∨ m > 4094)) ∨
  (∃ M, t.maxID = some M ∧ (M < 1 ∨ M > 4094)) ∨
  (∃ v, t.id = some v ∧ (v < 1 ∨ v > 4094)) ∨
  (∃ m M, t.minID = some m ∧ t.maxID = some M ∧ M < m)

end Bridge

namespace NFT

/-! ## pkg/network/ip/ipmasq_nftables_linux.go — nftables masquerade rules

We model the contents of the `masq_checks` chain of the
`cni_plugins_masquerade` table as a list of rules carrying their kernel
handle and comment.  `tx.Delete(rule)` removes the rule with that handle;
`tx.Add(rule)` appends a rule with a fresh handle.  The table/chain
bookkeeping and the `postrouting` chain do not touch `masq_checks` rules
and are not represented. -/

/-- Extract the value of a statically non-panicking
`MustFormatHashWithPrefix` call (a lemma discharges each call site). -/
def mustOk (e : Except GoPanic GoStr) : GoStr :=
  match e with
  | .ok s => s
  | .error _ => []

/-- `hashForNetwork(network)`. -/
def hashForNetwork (network : GoStr) : GoStr :=
  mustOk (IPUtils.MustFormatHashWithPrefix 16 [] network)

/-- `hashForInstance(network, ifName, id)`. -/
def hashForInstance (network ifName id : GoStr) : GoStr :=
  hashForNetwork network ++ ascii "-" ++
    mustOk (IPUtils.MustFormatHashWithPrefix 16 [] (ifName ++ ascii ":" ++ id))

/-- `knftables.CommentLengthMax`. -/
def CommentLengthMax : Nat := 128

/-- `strings.ReplaceAll(s, "\x22", "")`. -/
def stripQuotes (s : GoStr) : GoStr := s.filter (fun b => b ≠ 34)

/-- `commentForInstance(network, ifName, id)`: hash, then a human-readable
suffix, truncated to `CommentLengthMax`. -/
def commentForInstance (network ifName id : GoStr) : GoStr :=
  (hashForInstance network ifName id ++ ascii ", net: " ++ stripQuotes network ++
    ascii ", if: " ++ stripQuotes ifName ++ ascii ", id: " ++ stripQuotes id).take
    CommentLengthMax

/-- A rule in the `masq_checks` chain.  `saddr` records which allocated
subnet the masquerade rule was generated from; the textual nft expression
built by `knftables.Concat` is a function of it and is not re-serialized. -/
structure NfRule where
  handle : Nat
  comment : Option GoStr
  saddr : IPAM.IPNet
deriving DecidableEq, Repr

/-- `strings.HasPrefix(s, pfx)`. -/
def goHasPfx (s pfx : GoStr) : Bool := s.take pfx.length == pfx

/-- The `findRules` match predicate on one rule. -/
def ruleMatches (pfx : GoStr) (r : NfRule) : Bool :=
  match r.comment with
  | some c => goHasPfx c pfx
  | none => false

/-- `findRules(nft, commentPrefix)` over the `masq_checks` rules. -/
def findRules (rules : List NfRule) (commentPfx : GoStr) : List NfRule :=
  rules.filter (ruleMatches commentPfx)

/-- Apply the `tx.Delete` calls of a transaction: each listed rule is
deleted by its handle. -/
def deleteRules (rules toDelete : List NfRule) : List NfRule :=
  rules.filter (fun r => !toDelete.any (fun d => d.handle == r.handle))

/-- `teardownIPMasqNFTablesWithInterface`: delete every rule found by
`findRules` for the instance hash (no transaction is run when none match). -/
def teardownIPMasqNFTables (rules : List NfRule) (network ifName id : GoStr) : List NfRule :=
  let m := findRules rules (hashForInstance network ifName id)
  if m = [] then rules else deleteRules rules m

/-- The rules added by one setup call, one per element of `ipNs`, in order,
with fresh kernel-assigned handles `nextHandle, nextHandle+1, …`. -/
def newRules (network ifName id : GoStr) : List IPAM.IPNet → Nat → List NfRule
  | [], _ => []
  | ipn :: rest, nh =>
    ⟨nh, some (commentForInstance network ifName id), ipn⟩ ::
      newRules network ifName id rest (nh + 1)

/-- `setupIPMasqNFTablesWithInterface`: delete the stale rules matching the
instance hash, then append one masquerade rule per subnet. -/
def setupIPMasqNFTables (rules : List NfRule) (ipNs : List IPAM.IPNet)
    (network ifName id : GoStr) (nextHandle : Nat) : List NfRule :=
  let stale := findRules rules (hashForInstance network ifName id)
  deleteRules rules stale ++ newRules network ifName id ipNs nextHandle

/-- All handles present in a rule list are below `h`. -/
def handlesBelow (rules : List NfRule) (h : Nat) : Prop :=
  ∀ r ∈ rules, r.handle < h

/-- Rule handles are pairwise distinct (kernel handles are unique within a
chain). -/
def uniqHandles (rules : List NfRule) : Prop :=
  rules.Pairwise (fun a b => a.handle ≠ b.handle)

end NFT

/-! # Supporting lemmas -/

namespace SHA512

/-- The digest is always 64 bytes. -/
theorem sha512_length (msg : List Nat) : (sha512 msg).length = 64 := by
  simp [sha512, wordBytesBE]

/-- Every byte of a word encoding is below 256. -/
theorem wordBytesBE_lt (x : Nat) : ∀ b ∈ wordBytesBE x, b < 256 := by
  intro b hb
  simp only [wordBytesBE, List.mem_cons, List.not_mem_nil, or_false] at hb
  rcases hb with h | h | h | h | h | h | h | h <;> · subst h; exact Nat.mod_lt _ (by norm_num)

/-- Every digest byte is below 256. -/
theorem sha512_bytes_lt (msg : List Nat) : ∀ b ∈ sha512 msg, b < 256 := by
  intro b hb
  simp only [sha512, List.mem_append] at hb
  rcases hb with ((((((h | h) | h) | h) | h) | h) | h) | h <;> exact wordBytesBE_lt _ b h

end SHA512

namespace IPUtils

/-- Hex encoding doubles the length. -/
lemma hexEncode_length (l : List Nat) : (hexEncode l).length = 2 * l.length := by
  induction l with
  | nil => rfl
  | cons b t ih =>
    simp only [hexEncode] at ih ⊢
    simp only [List.map_cons, List.flatten_cons, List.length_append, List.length_cons,
      List.length_nil]
    omega

/-- A hex digit byte of a nibble is a hexadecimal ASCII character. -/
lemma hexDigitByte_isHex {n : Nat} (h : n < 16) : isHexDigitByte (hexDigitByte n) := by
  unfold isHexDigitByte hexDigitByte
  by_cases h10 : n < 10
  · rw [if_pos h10]
    left
    omega
  · rw [if_neg h10]
    right
    omega

/-- Every byte of the hex encoding of a byte string is a hex character. -/
lemma hexEncode_hexdigits (l : List Nat) (hl : ∀ x ∈ l, x < 256) :
    ∀ b ∈ hexEncode l, isHexDigitByte b := by
  intro b hb
  unfold hexEncode at hb
  rw [List.mem_flatten] at hb
  obtain ⟨s, hs, hbs⟩ := hb
  rw [List.mem_map] at hs
  obtain ⟨x, hx, hfx⟩ := hs
  subst hfx
  have hx256 := hl x hx
  simp only [List.mem_cons, List.not_mem_nil, or_false] at hbs
  rcases hbs with h | h <;> subst h
  · exact hexDigitByte_isHex (by omega)
  · exact hexDigitByte_isHex (by omega)

/-- The hex digest of a SHA-512 hash has 128 characters. -/
lemma hexEncode_sha512_length (msg : List Nat) :
    (hexEncode (SHA512.sha512 msg)).length = 128 := by
  rw [hexEncode_length, SHA512.sha512_length]

end IPUtils

namespace IPAM

/-- A set bit position is below the number itself. -/
lemma testBit_lt {n i : Nat} (h : n.testBit i = true) : i < n := by
  by_contra hlt
  push_neg at hlt
  have h2 : n < 2 ^ i := lt_of_le_of_lt hlt (Nat.lt_two_pow i)
  rw [Nat.testBit_lt_two_pow h2] at h
  exact Bool.noConfusion h

/-- `bitIndices` enumerates exactly the set bits. -/
lemma mem_bitIndices {n i : Nat} : i ∈ bitIndices n ↔ n.testBit i = true := by
  constructor
  · intro h
    exact (List.mem_filter.mp h).2
  · intro h
    exact List.mem_filter.mpr ⟨List.mem_range.mpr (testBit_lt h), h⟩

/-- Bits of `setBit`. -/
lemma testBit_setBit (n i j : Nat) :
    (setBit n i).testBit j = (n.testBit j || decide (i = j)) := by
  simp [setBit, Nat.testBit_or, Nat.testBit_two_pow]

/-- Bits of `clearBit` at a set position. -/
lemma testBit_clearBit (n i j : Nat) :
    (clearBit n i).testBit j = (n.testBit j ^^ decide (i = j)) := by
  simp [clearBit, Nat.testBit_xor, Nat.testBit_two_pow]

/-- `setBit` stays below a power bounding both inputs. -/
lemma setBit_lt_two_pow {n i f : Nat} (hn : n < 2 ^ f) (hi : i < f) :
    setBit n i < 2 ^ f :=
  Nat.bitwise_lt_two_pow hn (Nat.pow_lt_pow_right one_lt_two hi)

/-- The fueled popcount computes the bit-sum once the fuel bounds the value. -/
lemma countBitsAux_eq_sum :
    ∀ f n, n < 2 ^ f → countBitsAux f n = ∑ i ∈ Finset.range f, (n.testBit i).toNat := by
  intro f
  induction f with
  | zero =>
    intro n h
    interval_cases n
    rfl
  | succ f ih =>
    intro n h
    by_cases h0 : n = 0
    · subst h0
      simp [countBitsAux, Nat.zero_testBit]
    · have hdiv : n / 2 < 2 ^ f := by
        rw [Nat.div_lt_iff_lt_mul (by norm_num)]
        calc n < 2 ^ (f + 1) := h
        _ = 2 ^ f * 2 := by ring
      have h2 : (n.testBit 0).toNat = n % 2 := by
        rw [Nat.testBit_zero]
        rcases Nat.mod_two_eq_zero_or_one n with h | h <;> simp [h]
      rw [countBitsAux]
      simp only [h0, if_false]
      rw [ih (n / 2) hdiv, Finset.sum_range_succ']
      simp only [Nat.testBit_succ, h2]
      omega

/-- Extending the summation range beyond the value's width changes nothing. -/
lemma sum_testBit_congr {n a b : Nat} (ha : n < 2 ^ a) (hab : a ≤ b) :
    ∑ i ∈ Finset.range a, (n.testBit i).toNat = ∑ i ∈ Finset.range b, (n.testBit i).toNat := by
  apply Finset.sum_subset (Finset.range_subset.mpr hab)
  intro x hx hnx
  have hax : a ≤ x := by simpa using hnx
  have hlt : n < 2 ^ x := lt_of_lt_of_le ha (Nat.pow_le_pow_right (by norm_num) hax)
  simp [Nat.testBit_lt_two_pow hlt]

/-- `countBits` is the sum of the bits over any sufficiently wide window. -/
lemma countBits_eq_sum {n f : Nat} (h : n < 2 ^ f) :
    countBits n = ∑ i ∈ Finset.range f, (n.testBit i).toNat := by
  have h1 := countBitsAux_eq_sum n n (Nat.lt_two_pow n)
  rw [countBits, h1]
  rcases le_total n f with hle | hle
  · exact sum_testBit_congr (Nat.lt_two_pow n) hle
  · exact (sum_testBit_congr h hle).symm

/-- Setting an unset bit increments the popcount. -/
lemma countBits_setBit {n i : Nat} (h : n.testBit i = false) :
    countBits (setBit n i) = countBits n + 1 := by
  have hn : n < 2 ^ (n + i + 1) :=
    lt_of_lt_of_le (Nat.lt_two_pow n) (Nat.pow_le_pow_right (by norm_num) (by omega))
  have hi : i < n + i + 1 := by omega
  have hs : setBit n i < 2 ^ (n + i + 1) := setBit_lt_two_pow hn hi
  rw [countBits_eq_sum hs, countBits_eq_sum hn]
  have hsplit : ∀ j, ((setBit n i).testBit j).toNat =
      (n.testBit j).toNat + if j = i then 1 else 0 := by
    intro j
    rw [testBit_setBit]
    by_cases hj : j = i
    · subst hj
      simp [h]
    · have : ¬(i = j) := fun hc => hj hc.symm
      simp [this, hj]
  rw [Finset.sum_congr rfl (fun j _ => hsplit j), Finset.sum_add_distrib,
    Finset.sum_ite_eq' (Finset.range (n + i + 1)) i (fun _ => 1)]
  simp [Finset.mem_range, hi]

/-- A value below `2^m` with popcount `m` has all of its low `m` bits set. -/
lemma full_of_countBits {n m : Nat} (hlt : n < 2 ^ m) (hc : countBits n = m) :
    n = 2 ^ m - 1 := by
  have hsum : ∑ i ∈ Finset.range m, (n.testBit i).toNat = m := by
    rw [← countBits_eq_sum hlt, hc]
  have hall : ∀ j ∈ Finset.range m, (n.testBit j).toNat = 1 := by
    by_contra hne
    push_neg at hne
    obtain ⟨j, hj, hjne⟩ := hne
    have hj1 : (n.testBit j).toNat = 0 := by
      cases hb : n.testBit j <;> simp [hb] at hjne ⊢
    have hlt2 : ∑ i ∈ Finset.range m, (n.testBit i).toNat < ∑ _i ∈ Finset.range m, 1 := by
      apply Finset.sum_lt_sum (fun i _ => Bool.toNat_le _)
      exact ⟨j, hj, by omega⟩
    simp only [Finset.sum_const, Finset.card_range, smul_eq_mul, mul_one] at hlt2
    omega
  apply Nat.eq_of_testBit_eq
  intro i
  rw [Nat.testBit_two_pow_sub_one]
  by_cases hi : i < m
  · have := hall i (Finset.mem_range.mpr hi)
    cases hb : n.testBit i <;> simp [hb] at this ⊢
    · omega
  · have : n < 2 ^ i := lt_of_lt_of_le hlt (Nat.pow_le_pow_right (by norm_num) (by omega))
    simp [Nat.testBit_lt_two_pow this, hi]

/-- A value below `2^m` with popcount below `m` has an unset bit below `m`. -/
lemma exists_clear_bit {n m : Nat} (hlt : n < 2 ^ m) (hc : countBits n < m) :
    ∃ j, j < m ∧ n.testBit j = false := by
  by_contra hne
  push_neg at hne
  have hall : ∀ j, j < m → n.testBit j = true := by
    intro j hj
    cases hb : n.testBit j
    · exact absurd hb (hne j hj)
    · rfl
  have : countBits n = m := by
    rw [countBits_eq_sum hlt]
    have : ∀ j ∈ Finset.range m, (n.testBit j).toNat = 1 := by
      intro j hj
      simp [hall j (Finset.mem_range.mp hj)]
    rw [Finset.sum_congr rfl this]
    simp
  omega

/-- Popcount is at most the window width. -/
lemma countBits_le {n m : Nat} (hlt : n < 2 ^ m) : countBits n ≤ m := by
  rw [countBits_eq_sum hlt]
  calc ∑ i ∈ Finset.range m, (n.testBit i).toNat ≤ ∑ _i ∈ Finset.range m, 1 :=
        Finset.sum_le_sum (fun i _ => Bool.toNat_le _)
  _ = m := by simp

/-- A successful `AllocateBit` returns an in-range, previously clear bit. -/
lemma allocateBit_some {a m c rnd off : Nat} (h : AllocateBit a m c rnd = .ok (some off)) :
    off < m ∧ a.testBit off = false := by
  unfold AllocateBit at h
  split at h
  · simp at h
  · split at h
    · simp at h
    · rename_i res hres
      unfold randIntN at hres
      split at hres
      · simp at hres
      · rename_i hm
        simp only [Except.ok.injEq] at hres
        subst hres
        split at h
        · rename_i i hfind
          simp only [Except.ok.injEq, Option.some.injEq] at h
          subst h
          refine ⟨Nat.mod_lt _ (Nat.pos_of_ne_zero hm), ?_⟩
          have hp := List.find?_some hfind
          simpa using hp
        · simp at h

/-- Reduction of `AllocateBit` past its guard and random draw. -/
lemma allocateBit_eq {a m c rnd : Nat} (hc : ¬c > m) (hm : m ≠ 0) :
    AllocateBit a m c rnd =
      match (List.range m).find? (fun i => !a.testBit ((rnd % m + i) % m)) with
      | some i => .ok (some ((rnd % m + i) % m))
      | none => .ok none := by
  unfold AllocateBit randIntN
  rw [if_neg hc, if_neg hm]

/-- With a positive capacity, a full in-range bitmap makes `AllocateBit`
report exhaustion. -/
lemma allocateBit_full {a m c rnd : Nat} (hm : 0 < m) (ha : a < 2 ^ m)
    (hc : countBits a = c) (hge : m ≤ c) : AllocateBit a m c rnd = .ok none := by
  have hcle : countBits a ≤ m := countBits_le ha
  have hfull : a = 2 ^ m - 1 := full_of_countBits ha (by omega)
  rw [allocateBit_eq (by omega) (by omega)]
  have hnone : (List.range m).find? (fun i => !a.testBit ((rnd % m + i) % m)) = none := by
    rw [List.find?_eq_none]
    intro i _
    rw [hfull, Nat.testBit_two_pow_sub_one, decide_eq_true (Nat.mod_lt _ hm)]
    simp
  rw [hnone]

/-- With a free in-range bit and an honest count, `AllocateBit` succeeds. -/
lemma allocateBit_avail {a m rnd : Nat} (ha : a < 2 ^ m) (hlt : countBits a < m) :
    ∃ off, AllocateBit a m (countBits a) rnd = .ok (some off) ∧ off < m ∧
      a.testBit off = false := by
  have hm : 0 < m := lt_of_le_of_lt (Nat.zero_le _) hlt
  rw [allocateBit_eq (by omega) (by omega)]
  obtain ⟨j, hj, hjb⟩ := exists_clear_bit ha hlt
  have ho : rnd % m < m := Nat.mod_lt _ hm
  have hexists : ∃ i ∈ List.range m, (!a.testBit ((rnd % m + i) % m)) = true := by
    refine ⟨(j + m - rnd % m) % m, List.mem_range.mpr (Nat.mod_lt _ hm), ?_⟩
    have heq : (rnd % m + (j + m - rnd % m) % m) % m = j := by
      rcases le_or_lt (rnd % m) j with hoj | hoj
      · have h1 : j + m - rnd % m = (j - rnd % m) + m := by omega
        rw [h1, Nat.add_mod_right, Nat.mod_eq_of_lt (show j - rnd % m < m by omega)]
        have h2 : rnd % m + (j - rnd % m) = j := by omega
        rw [h2, Nat.mod_eq_of_lt hj]
      · have h1 : (j + m - rnd % m) % m = j + m - rnd % m :=
          Nat.mod_eq_of_lt (by omega)
        rw [h1]
        have h2 : rnd % m + (j + m - rnd % m) = j + m := by omega
        rw [h2, Nat.add_mod_right, Nat.mod_eq_of_lt hj]
    rw [heq, hjb]
    rfl
  obtain ⟨i, hfound⟩ : ∃ i, (List.range m).find?
      (fun i => !a.testBit ((rnd % m + i) % m)) = some i :=
    Option.isSome_iff_exists.mp (List.find?_isSome.mpr hexists)
  rw [hfound]
  have hp := List.find?_some hfound
  exact ⟨(rnd % m + i) % m, rfl, Nat.mod_lt _ hm, by simpa using hp⟩

/-- A successful `AllocateNext` returns an in-range, previously clear bit and
sets exactly that bit. -/
lemma allocateNext_some {r r' : AllocationBitmap} {rnd off : Nat}
    (h : AllocateNext r rnd = .ok (r', some off)) :
    off < r.max ∧ r.allocated.testBit off = false ∧
      r' = { r with count := r.count + 1, allocated := setBit r.allocated off } := by
  unfold AllocateNext at h
  split at h
  · simp at h
  · simp at h
  · rename_i next hbit
    simp only [Except.ok.injEq, Prod.mk.injEq, Option.some.injEq] at h
    obtain ⟨hr', hoff⟩ := h
    subst hoff
    obtain ⟨h1, h2⟩ := allocateBit_some hbit
    exact ⟨h1, h2, hr'.symm⟩

/-- `AllocateNext` preserves the bitmap invariant and static fields. -/
lemma allocateNext_inv {r r' : AllocationBitmap} {rnd : Nat} {res : Option Nat}
    (hinv : Inv r) (h : AllocateNext r rnd = .ok (r', res)) :
    Inv r' ∧ r'.max = r.max ∧ r'.rangeSpec = r.rangeSpec := by
  obtain ⟨hc, ha⟩ := hinv
  match res with
  | none =>
    have : r' = r := by
      unfold AllocateNext at h
      split at h
      · simp at h
      · simp only [Except.ok.injEq, Prod.mk.injEq] at h
        exact h.1.symm
      · simp at h
    subst this
    exact ⟨⟨hc, ha⟩, rfl, rfl⟩
  | some off =>
    obtain ⟨hlt, hbit, hr'⟩ := allocateNext_some h
    subst hr'
    refine ⟨⟨?_, setBit_lt_two_pow ha hlt⟩, rfl, rfl⟩
    show r.count + 1 = countBits (setBit r.allocated off)
    rw [countBits_setBit hbit, hc]

/-- `Allocate` preserves the invariant when the offset is in range. -/
lemma allocate_inv {r : AllocationBitmap} {off : Nat} (hinv : Inv r) (hoff : off < r.max) :
    Inv (Allocate r off).1 ∧ (Allocate r off).1.max = r.max ∧
      (Allocate r off).1.rangeSpec = r.rangeSpec := by
  obtain ⟨hc, ha⟩ := hinv
  unfold Allocate
  by_cases hb : r.allocated.testBit off
  · rw [if_pos hb]
    exact ⟨⟨hc, ha⟩, rfl, rfl⟩
  · rw [Bool.not_eq_true] at hb
    rw [if_neg (by simp [hb])]
    refine ⟨⟨?_, setBit_lt_two_pow ha hoff⟩, rfl, rfl⟩
    show r.count + 1 = countBits (setBit r.allocated off)
    rw [countBits_setBit hb, hc]

/-- Clearing a set bit decrements the popcount. -/
lemma countBits_clearBit {n i : Nat} (h : n.testBit i = true) :
    countBits (clearBit n i) = countBits n - 1 := by
  have hset : setBit (clearBit n i) i = n := by
    apply Nat.eq_of_testBit_eq
    intro j
    rw [testBit_setBit, testBit_clearBit]
    by_cases hj : i = j
    · subst hj
      simp [h]
    · simp [hj]
  have hclear : (clearBit n i).testBit i = false := by
    rw [testBit_clearBit, h]
    simp
  have := countBits_setBit hclear
  rw [hset] at this
  omega

/-- `clearBit` at a set position never enlarges the value. -/
lemma clearBit_le {n i : Nat} (h : n.testBit i = true) : clearBit n i ≤ n := by
  apply le_of_lt
  apply Nat.lt_of_testBit i
  · rw [testBit_clearBit, h]
    simp
  · exact h
  · intro j hj
    rw [testBit_clearBit]
    have hne : ¬i = j := by omega
    simp [hne]

/-- `Release` preserves the invariant. -/
lemma release_inv {r : AllocationBitmap} {off : Nat} (hinv : Inv r) :
    Inv (Release r off) ∧ (Release r off).max = r.max ∧
      (Release r off).rangeSpec = r.rangeSpec := by
  obtain ⟨hc, ha⟩ := hinv
  unfold Release
  by_cases hb : r.allocated.testBit off
  · rw [if_pos hb]
    refine ⟨⟨?_, ?_⟩, rfl, rfl⟩
    · show r.count - 1 = countBits (clearBit r.allocated off)
      rw [countBits_clearBit hb, hc]
    · exact lt_of_le_of_lt (clearBit_le hb) ha
  · rw [Bool.not_eq_true] at hb
    rw [if_neg (by simp [hb])]
    exact ⟨⟨hc, ha⟩, rfl, rfl⟩

/-- `bytesToNat` over a snoc. -/
lemma bytesToNat_append (l : List Nat) (b : Nat) :
    bytesToNat (l ++ [b]) = bytesToNat l * 256 + b := by
  simp [bytesToNat, List.foldl_append]

/-- `SetBytes` inverts `Bytes` (with enough fuel). -/
lemma bytesToNat_natToBytesAux : ∀ f n, n ≤ f → bytesToNat (natToBytesAux f n) = n := by
  intro f
  induction f with
  | zero =>
    intro n h
    interval_cases n
    rfl
  | succ f ih =>
    intro n h
    rw [natToBytesAux]
    by_cases h0 : n = 0
    · simp [h0, bytesToNat]
    · rw [if_neg h0, bytesToNat_append, ih (n / 256) (by omega)]
      omega

/-- `big.NewInt(0).SetBytes(n.Bytes())` returns `n`. -/
lemma bytesToNat_natToBytes (n : Nat) : bytesToNat (natToBytes n) = n :=
  bytesToNat_natToBytesAux n n le_rfl

/-- A full bitmap (with honest count and in-range bits) makes `AllocateNext`
return the unchanged state and no offset. -/
lemma allocateNext_full {r : AllocationBitmap} {rnd : Nat} (hm : 0 < r.max)
    (hinv : Inv r) (hge : r.max ≤ r.count) : AllocateNext r rnd = .ok (r, none) := by
  unfold AllocateNext
  rw [allocateBit_full hm hinv.2 hinv.1.symm hge]

/-- While capacity remains, every `AllocateNext` in a run succeeds; the run
returns as many distinct, in-range, previously clear offsets as requested. -/
lemma runAllocs_ok {r : AllocationBitmap} (hinv : Inv r) :
    ∀ rnds : List Nat, r.count + rnds.length ≤ r.max →
    ∃ rf offs, runAllocs r rnds = .ok (rf, offs) ∧
      offs.length = rnds.length ∧
      rf.max = r.max ∧ rf.rangeSpec = r.rangeSpec ∧ Inv rf ∧
      rf.count = r.count + rnds.length ∧
      (∀ o ∈ offs, o < r.max ∧ r.allocated.testBit o = false) ∧
      offs.Nodup ∧
      (∀ j, r.allocated.testBit j = true → rf.allocated.testBit j = true) := by
  intro rnds
  induction rnds generalizing r with
  | nil =>
    intro _
    exact ⟨r, [], rfl, rfl, rfl, rfl, hinv, by simp, by simp, List.nodup_nil,
      fun j h => h⟩
  | cons rnd rest ih =>
    intro hcap
    obtain ⟨hc, ha⟩ := hinv
    have hcnt : countBits r.allocated < r.max := by
      rw [← hc]
      simp only [List.length_cons] at hcap
      omega
    obtain ⟨off, hab, hoff, hclear⟩ := @allocateBit_avail r.allocated r.max rnd ha hcnt
    rw [← hc] at hab
    have hnext : AllocateNext r rnd =
        .ok ({ r with count := r.count + 1, allocated := setBit r.allocated off },
          some off) := by
      unfold AllocateNext
      rw [hab]
    set r' : AllocationBitmap :=
      { r with count := r.count + 1, allocated := setBit r.allocated off } with hr'
    have hinv' : Inv r' := by
      refine ⟨?_, setBit_lt_two_pow ha hoff⟩
      show r.count + 1 = countBits (setBit r.allocated off)
      rw [countBits_setBit hclear, hc]
    have hcap' : r'.count + rest.length ≤ r'.max := by
      show r.count + 1 + rest.length ≤ r.max
      simp only [List.length_cons] at hcap
      omega
    obtain ⟨rf, offs, hrun, hlen, hmax, hspec, hinvf, hcount, hprops, hnodup, hmono⟩ :=
      ih hinv' hcap'
    refine ⟨rf, off :: offs, ?_, by simp [hlen], hmax, hspec, hinvf, ?_, ?_, ?_, ?_⟩
    · simp only [runAllocs, hnext, hrun]
    · show rf.count = r.count + (rest.length + 1)
      rw [hcount]
      show r.count + 1 + rest.length = r.count + (rest.length + 1)
      omega
    · intro o ho
      rcases List.mem_cons.mp ho with h | h
      · subst h
        exact ⟨hoff, hclear⟩
      · obtain ⟨h1, h2⟩ := hprops o h
        refine ⟨by rwa [show r'.max = r.max from rfl] at h1, ?_⟩
        have h3 : r'.allocated.testBit o = false := h2
        rw [show r'.allocated = setBit r.allocated off from rfl, testBit_setBit] at h3
        cases hb : r.allocated.testBit o
        · rfl
        · rw [hb] at h3
          simp at h3
    · refine List.nodup_cons.mpr ⟨?_, hnodup⟩
      intro hmem
      have h2 := (hprops off hmem).2
      rw [show r'.allocated = setBit r.allocated off from rfl, testBit_setBit] at h2
      simp at h2
    · intro j hj
      apply hmono
      rw [show r'.allocated = setBit r.allocated off from rfl, testBit_setBit, hj]
      rfl

/-- `Int64()` of a small non-negative value is the value itself. -/
lemma int64OfBigInt_ofNat {d : Nat} (hd : d < 2 ^ 63) :
    int64OfBigInt (d : Int) = (d : Int) := by
  unfold int64OfBigInt
  rw [if_neg (by omega), Int.natAbs_ofNat,
    Nat.mod_eq_of_lt (by omega : d < 2 ^ 64), if_pos hd]

/-- `Int64()` of a value in `[2^63, 2^64)` wraps to a negative number. -/
lemma int64OfBigInt_ofNat_big {d : Nat} (h63 : 2 ^ 63 ≤ d) (h64 : d < 2 ^ 64) :
    int64OfBigInt (d : Int) = (d : Int) - 2 ^ 64 := by
  unfold int64OfBigInt
  rw [if_neg (by omega), Int.natAbs_ofNat, Nat.mod_eq_of_lt h64, if_neg (by omega)]

/-- `Int64()` of `-1` is `-1`. -/
lemma int64OfBigInt_neg_one : int64OfBigInt (-1) = -1 := by decide

/-- `RangeSize` never exceeds the subnet's address count. -/
lemma RangeSize_le_pow (s : IPNet) : RangeSize s ≤ 2 ^ (s.bits - s.ones) := by
  unfold RangeSize
  split_ifs with h1 h2
  · exact Nat.zero_le _
  · exact Nat.pow_le_pow_right (by norm_num) h2.2
  · exact le_rfl

/-- For genuine IPv4/IPv6 masks, `RangeSize` is far below `2^63` (so range
offsets survive the `Int64` conversion). -/
lemma RangeSize_lt_two_pow_63 {s : IPNet} (hb : s.bits = 32 ∨ s.bits = 128) :
    RangeSize s < 2 ^ 63 := by
  unfold RangeSize
  split_ifs with h1 h2
  · exact Nat.pos_pow_of_pos _ (by norm_num)
  · norm_num
  · apply Nat.pow_lt_pow_right (by norm_num)
    omega

/-- Adding fewer host addresses than the subnet holds stays in the subnet. -/
lemma containsIP_add {s : IPNet} (halign : s.aligned) {d : Nat}
    (hd : d < 2 ^ (s.bits - s.ones)) : s.containsIP (s.ip + d) = true := by
  unfold IPNet.containsIP
  refine beq_iff_eq.mpr ?_
  rw [Nat.shiftRight_eq_div_pow, Nat.shiftRight_eq_div_pow]
  have hp : 0 < 2 ^ (s.bits - s.ones) := Nat.pos_pow_of_pos _ (by norm_num)
  have hq : 2 ^ (s.bits - s.ones) * (s.ip / 2 ^ (s.bits - s.ones)) = s.ip := by
    have h1 := Nat.div_add_mod s.ip (2 ^ (s.bits - s.ones))
    have h2 : s.ip % 2 ^ (s.bits - s.ones) = 0 := halign
    omega
  calc (s.ip + d) / 2 ^ (s.bits - s.ones)
      = (2 ^ (s.bits - s.ones) * (s.ip / 2 ^ (s.bits - s.ones)) + d) /
        2 ^ (s.bits - s.ones) := by rw [hq]
    _ = s.ip / 2 ^ (s.bits - s.ones) + d / 2 ^ (s.bits - s.ones) :=
        Nat.mul_add_div hp _ _
    _ = s.ip / 2 ^ (s.bits - s.ones) := by rw [Nat.div_eq_of_lt hd, Nat.add_zero]

/-- A member of an aligned subnet is the subnet address plus its host part. -/
lemma containsIP_decompose {s : IPNet} (halign : s.aligned) {ip : Nat}
    (h : s.containsIP ip = true) :
    ip = s.ip + ip % 2 ^ (s.bits - s.ones) := by
  unfold IPNet.containsIP at h
  rw [Nat.shiftRight_eq_div_pow, Nat.shiftRight_eq_div_pow] at h
  have h2 := beq_iff_eq.mp h
  have h1 := Nat.div_add_mod ip (2 ^ (s.bits - s.ones))
  have h3 := Nat.div_add_mod s.ip (2 ^ (s.bits - s.ones))
  have h4 : s.ip % 2 ^ (s.bits - s.ones) = 0 := halign
  rw [h2] at h1
  omega

/-- Host offsets never overflow the 128-bit address space. -/
lemma aligned_add_lt {s : IPNet} (halign : s.aligned) (hip : s.ip < 2 ^ 128)
    (hbits : s.bits ≤ 128) {d : Nat} (hd : d < 2 ^ (s.bits - s.ones)) :
    s.ip + d < 2 ^ 128 := by
  have hh128 : s.bits - s.ones ≤ 128 := by omega
  have hpow : 2 ^ (s.bits - s.ones) * 2 ^ (128 - (s.bits - s.ones)) = 2 ^ 128 := by
    rw [← pow_add]
    congr 1
    omega
  obtain ⟨q, hq⟩ := Nat.dvd_of_mod_eq_zero halign
  have hq2 : q < 2 ^ (128 - (s.bits - s.ones)) := by
    by_contra hle
    push_neg at hle
    have h2 : 2 ^ 128 ≤ s.ip := by
      rw [← hpow, hq]
      exact Nat.mul_le_mul_left _ hle
    omega
  have h3 : s.ip + 2 ^ (s.bits - s.ones) ≤ 2 ^ 128 := by
    rw [← hpow, hq]
    have h4 : 2 ^ (s.bits - s.ones) * q + 2 ^ (s.bits - s.ones) =
        2 ^ (s.bits - s.ones) * (q + 1) := by ring
    rw [h4]
    exact Nat.mul_le_mul_left _ (by omega)
  omega

/-- `GetIndexedIP` succeeds on in-subnet host indexes of aligned subnets. -/
lemma getIndexedIP_ok {s : IPNet} (halign : s.aligned) (hip : s.ip < 2 ^ 128)
    (hbits : s.bits ≤ 128) {d : Nat} (hd : d < 2 ^ (s.bits - s.ones)) :
    GetIndexedIP s d = .ok (s.ip + d) := by
  unfold GetIndexedIP addIPOffset
  rw [Nat.mod_eq_of_lt (aligned_add_lt halign hip hbits hd),
    if_neg (not_not_intro (containsIP_add halign hd))]

/-- A positive `contains` verdict carries an offset below `max`. -/
lemma contains_snd_lt {r : Range} {ip : Nat} (h : (r.contains ip).1 = true) :
    (r.contains ip).2 < r.max := by
  unfold Range.contains at h ⊢
  by_cases h1 : r.net.containsIP ip = true
  · rw [if_neg (not_not_intro h1)] at h ⊢
    by_cases h2 : calculateIPOffset r.base ip < 0 ∨
        calculateIPOffset r.base ip ≥ (r.max : Int)
    · rw [if_pos h2] at h
      exact absurd h (by simp)
    · rw [if_neg h2] at h ⊢
      push_neg at h2
      show (calculateIPOffset r.base ip).toNat < r.max
      omega
  · rw [if_pos (by simp [h1])] at h
    exact absurd h (by simp)

/-- `contains` at `base + offset` for an in-window offset. -/
lemma contains_eval_true {r : Range} (hbase : r.base = r.net.ip + 1)
    (halign : r.net.aligned) (hmax2 : r.max + 2 ≤ 2 ^ (r.net.bits - r.net.ones))
    (hmax63 : r.max < 2 ^ 63) {off : Nat} (hoff : off < r.max) :
    r.contains (r.net.ip + (off + 1)) = (true, off) := by
  have hd : off + 1 < 2 ^ (r.net.bits - r.net.ones) := by omega
  have hc : r.net.containsIP (r.net.ip + (off + 1)) = true := containsIP_add halign hd
  unfold Range.contains
  rw [if_neg (not_not_intro hc)]
  have hoffeq : calculateIPOffset r.base (r.net.ip + (off + 1)) = (off : Int) := by
    unfold calculateIPOffset
    have heq : ((r.net.ip + (off + 1) : Nat) : Int) - (r.base : Int) =
        ((off : Nat) : Int) := by
      rw [hbase]
      push_cast
      ring
    rw [heq]
    exact int64OfBigInt_ofNat (by omega)
  rw [hoffeq, if_neg (by omega)]
  simp

/-- A positive `contains` verdict on an aligned subnet pins the address to
`net.ip + (offset + 1)` (host bits at most 64, window below `2^63`). -/
lemma contains_true_elim {r : Range} (hbase : r.base = r.net.ip + 1)
    (halign : r.net.aligned) (hh64 : r.net.bits - r.net.ones ≤ 64)
    {ip : Nat} (hc : (r.contains ip).1 = true) :
    ∃ d : Nat, ip = r.net.ip + (d + 1) ∧ d < r.max ∧ (r.contains ip).2 = d := by
  unfold Range.contains at hc ⊢
  by_cases h1 : r.net.containsIP ip = true
  swap
  · rw [if_pos (by simp [h1])] at hc
    exact absurd hc (by simp)
  rw [if_neg (not_not_intro h1)] at hc ⊢
  have hdec := containsIP_decompose halign h1
  have hdlt : ip % 2 ^ (r.net.bits - r.net.ones) < 2 ^ (r.net.bits - r.net.ones) :=
    Nat.mod_lt _ (Nat.pos_pow_of_pos _ (by norm_num))
  rcases Nat.eq_zero_or_pos (ip % 2 ^ (r.net.bits - r.net.ones)) with hm0 | hmpos
  · have hoff : calculateIPOffset r.base ip = -1 := by
      unfold calculateIPOffset
      have heq : (ip : Int) - (r.base : Int) = -1 := by omega
      rw [heq]
      exact int64OfBigInt_neg_one
    rw [hoff, if_pos (Or.inl (by norm_num))] at hc
    exact absurd hc (by simp)
  · have hdiff : (ip : Int) - (r.base : Int) =
        ((ip % 2 ^ (r.net.bits - r.net.ones) - 1 : Nat) : Int) := by omega
    have hub : ip % 2 ^ (r.net.bits - r.net.ones) - 1 < 2 ^ 64 := by
      have hple : 2 ^ (r.net.bits - r.net.ones) ≤ 2 ^ 64 :=
        Nat.pow_le_pow_right (by norm_num) hh64
      omega
    by_cases hm63 : ip % 2 ^ (r.net.bits - r.net.ones) - 1 < 2 ^ 63
    · have hoff : calculateIPOffset r.base ip =
          ((ip % 2 ^ (r.net.bits - r.net.ones) - 1 : Nat) : Int) := by
        unfold calculateIPOffset
        rw [hdiff]
        exact int64OfBigInt_ofNat hm63
      rw [hoff] at hc ⊢
      by_cases hrange : ip % 2 ^ (r.net.bits - r.net.ones) - 1 < r.max
      · refine ⟨ip % 2 ^ (r.net.bits - r.net.ones) - 1, by omega, hrange, ?_⟩
        rw [if_neg (by omega)]
        simp
      · rw [if_pos (Or.inr (by omega))] at hc
        exact absurd hc (by simp)
    · push_neg at hm63
      have hoff : calculateIPOffset r.base ip =
          ((ip % 2 ^ (r.net.bits - r.net.ones) - 1 : Nat) : Int) - 2 ^ 64 := by
        unfold calculateIPOffset
        rw [hdiff]
        exact int64OfBigInt_ofNat_big hm63 hub
      rw [hoff, if_pos (Or.inl (by omega))] at hc
      exact absurd hc (by simp)

/-- Case analysis on `Range.Allocate`: unchanged, or the bitmap bit at the
contained offset is set. -/
lemma allocate_fst (r : Range) (ip : Nat) :
    (r.Allocate ip).1 = r ∨
    ((r.contains ip).1 = true ∧
      (r.Allocate ip).1 =
        { r with alloc := (IPAM.Allocate r.alloc (r.contains ip).2).1 }) := by
  unfold Range.Allocate
  cases hc : (r.contains ip).1
  · left
    rfl
  · cases ha : (IPAM.Allocate r.alloc (r.contains ip).2).2
    · left
      rfl
    · right
      exact ⟨rfl, rfl⟩

/-- Case analysis on `Range.Release`. -/
lemma release_fst (r : Range) (ip : Nat) :
    r.Release ip = r ∨
    r.Release ip = { r with alloc := IPAM.Release r.alloc (r.contains ip).2 } := by
  unfold Range.Release
  cases hc : (r.contains ip).1
  · left
    rfl
  · right
    rfl

/-- `Range.Has` unfolded. -/
lemma has_iff {r : Range} {ip : Nat} :
    r.Has ip = true ↔
    ((r.contains ip).1 = true ∧ IPAM.Has r.alloc (r.contains ip).2 = true) := by
  unfold Range.Has
  cases hc : (r.contains ip).1 <;> simp [hc]

/-- Elimination for `Range.AllocateNextR`. -/
lemma allocateNextR_elim {r r' : Range} {rnd : Nat} {res : Option Nat}
    (h : r.AllocateNextR rnd = .ok (r', res)) :
    ∃ a res2, AllocateNext r.alloc rnd = .ok (a, res2) ∧ r' = { r with alloc := a } := by
  unfold Range.AllocateNextR at h
  split at h
  · exact absurd h (by simp)
  · rename_i a hn
    simp only [Except.ok.injEq, Prod.mk.injEq] at h
    exact ⟨a, none, hn, h.1.symm⟩
  · rename_i a off hn
    simp only [Except.ok.injEq, Prod.mk.injEq] at h
    exact ⟨a, some off, hn, h.1.symm⟩

/-- Every reachable `Range` satisfies the structural invariant. -/
lemma rangeReachable_inv {r : Range} (h : RangeReachable r) : RangeInv r := by
  induction h with
  | new cidr =>
    unfold NewCIDRRange RangeInv
    by_cases hgt : RangeSize cidr > 2
    · rw [if_pos hgt]
      exact ⟨⟨rfl, Nat.pos_pow_of_pos _ (by norm_num)⟩, rfl,
        fun _ => ⟨rfl, rfl⟩, fun hc => absurd hgt hc⟩
    · rw [if_neg hgt]
      exact ⟨⟨rfl, Nat.pos_pow_of_pos _ (by norm_num)⟩, rfl,
        fun hc => absurd hc hgt, fun _ => ⟨rfl, rfl⟩⟩
  | allocate ip _ ih =>
    rename_i r0 _
    rcases allocate_fst r0 ip with heq | ⟨hc, heq⟩
    · rwa [heq]
    · obtain ⟨hinv, hmax, _⟩ := allocate_inv ih.1
        (by rw [ih.2.1]; exact contains_snd_lt hc)
      rw [heq]
      exact ⟨hinv, by rw [hmax, ih.2.1], ih.2.2.1, ih.2.2.2⟩
  | allocateNext _ hstep ih =>
    rename_i r0 r1 rnd res _
    obtain ⟨a, res2, hn, heq⟩ := allocateNextR_elim hstep
    obtain ⟨hinv, hmax, _⟩ := allocateNext_inv ih.1 hn
    rw [heq]
    exact ⟨hinv, by rw [hmax, ih.2.1], ih.2.2.1, ih.2.2.2⟩
  | release ip _ ih =>
    rename_i r0 _
    rcases release_fst r0 ip with heq | heq
    · rwa [heq]
    · obtain ⟨hinv, hmax, _⟩ := @release_inv r0.alloc ((r0.contains ip).2) ih.1
      rw [heq]
      exact ⟨hinv, by rw [hmax, ih.2.1], ih.2.2.1, ih.2.2.2⟩

/-- On an invariant-respecting `Range` over a canonical IPv4/IPv6 subnet with
more than 2 addresses and at most 64 host bits, the IPs handed to `ForEach`
are exactly those with `Has = true`, and the `nil` IP is never handed out. -/
lemma forEach_iff {r : Range} (hinv : RangeInv r)
    (hb : r.net.bits = 32 ∨ r.net.bits = 128)
    (hsz : 2 < RangeSize r.net)
    (hh64 : r.net.bits - r.net.ones ≤ 64)
    (halign : r.net.aligned)
    (hip128 : r.net.ip < 2 ^ 128) :
    (∀ ip : Nat, some ip ∈ r.forEachIPs ↔ r.Has ip = true) ∧
    none ∉ r.forEachIPs := by
  obtain ⟨⟨hcnt, hlt⟩, hameq, hgt, _⟩ := hinv
  obtain ⟨hbase, hmax⟩ := hgt hsz
  have hb128 : r.net.bits ≤ 128 := by rcases hb with h | h <;> omega
  have hszle := RangeSize_le_pow r.net
  have hsz63 := RangeSize_lt_two_pow_63 hb
  have hmax2 : r.max + 2 ≤ 2 ^ (r.net.bits - r.net.ones) := by omega
  have hmax63 : r.max < 2 ^ 63 := by omega
  rw [hameq] at hlt
  have hbit_lt : ∀ off, r.alloc.allocated.testBit off = true → off < r.max := by
    intro off hoff
    by_contra hge
    push_neg at hge
    have hsmall : r.alloc.allocated < 2 ^ off :=
      lt_of_lt_of_le hlt (Nat.pow_le_pow_right (by norm_num) hge)
    rw [Nat.testBit_lt_two_pow hsmall] at hoff
    exact Bool.noConfusion hoff
  have hget : ∀ off, off < r.max →
      GetIndexedIP r.net (off + 1) = .ok (r.net.ip + (off + 1)) := by
    intro off hoff
    exact getIndexedIP_ok halign hip128 hb128 (by omega)
  constructor
  · intro ip
    constructor
    · intro hmem
      unfold Range.forEachIPs at hmem
      rw [List.mem_map] at hmem
      obtain ⟨off, hoffmem, hoffeq⟩ := hmem
      have hbit : r.alloc.allocated.testBit off = true := mem_bitIndices.mp hoffmem
      have hofflt : off < r.max := hbit_lt off hbit
      rw [hget off hofflt] at hoffeq
      have hipeq : ip = r.net.ip + (off + 1) :=
        (Option.some.inj hoffeq).symm
      subst hipeq
      rw [has_iff, contains_eval_true hbase halign hmax2 hmax63 hofflt]
      exact ⟨rfl, hbit⟩
    · intro hhas
      rw [has_iff] at hhas
      obtain ⟨hc, hbit⟩ := hhas
      obtain ⟨d, hipeq, hdlt, hcs⟩ := contains_true_elim hbase halign hh64 hc
      rw [hcs] at hbit
      unfold Range.forEachIPs
      rw [List.mem_map]
      refine ⟨d, mem_bitIndices.mpr hbit, ?_⟩
      rw [hget d hdlt, hipeq]
      rfl
  · intro hmem
    unfold Range.forEachIPs at hmem
    rw [List.mem_map] at hmem
    obtain ⟨off, hoffmem, hoffeq⟩ := hmem
    have hbit : r.alloc.allocated.testBit off = true := mem_bitIndices.mp hoffmem
    have hofflt := hbit_lt off hbit
    rw [hget off hofflt] at hoffeq
    exact Option.noConfusion hoffeq

end IPAM

namespace Bridge

/-- Reduction of `collectOne` through the result of the switch block. -/
lemma collectOne_minmax_error {mn mx : Option Int} {idv : Option Int} {acc : List Int}
    {e : GoStr} (he : collectMinMax acc mn mx = .error e) :
    collectOne acc ⟨mn, mx, idv⟩ = .error e := by
  show (match collectMinMax acc mn mx with
        | .error e => (Except.error e : Except GoStr (List Int))
        | .ok acc2 => collectSingleId acc2 idv) = .error e
  rw [he]

/-- Reduction of `collectOne` past a successful switch block. -/
lemma collectOne_minmax_ok {mn mx : Option Int} {idv : Option Int} {acc acc2 : List Int}
    (he : collectMinMax acc mn mx = .ok acc2) :
    collectOne acc ⟨mn, mx, idv⟩ = collectSingleId acc2 idv := by
  show (match collectMinMax acc mn mx with
        | .error e => (Except.error e : Except GoStr (List Int))
        | .ok acc2 => collectSingleId acc2 idv) = collectSingleId acc2 idv
  rw [he]

/-- An invalid trunk entry makes the loop body fail, whatever was
accumulated so far. -/
lemma collectOne_error_of_bad {t : VlanTrunk} (hbad : claimBadEntry t) (acc : List Int) :
    ∃ e, collectOne acc t = .error e := by
  rcases t with ⟨mn, mx, idv⟩
  have hsingle : ∀ (acc2 : List Int) (v : Int), v < 1 ∨ v > 4094 →
      collectSingleId acc2 (some v) = .error (ascii "incorrect trunk id parameter") := by
    intro acc2 v hv
    show (if v ≤ 0 ∨ v > 4094
      then (Except.error (ascii "incorrect trunk id parameter") : Except GoStr (List Int))
      else Except.ok (insertId v acc2)) =
      Except.error (ascii "incorrect trunk id parameter")
    rw [if_pos (by omega)]
  rcases mn with _ | m <;> rcases mx with _ | M
  · -- both nil: only a bad single id is possible
    rcases hbad with ⟨m, hm, _⟩ | ⟨M, hM, _⟩ | ⟨v, hv, hvr⟩ | ⟨m, M, hm, _, _⟩
    · exact Option.noConfusion (show (none : Option Int) = some m from hm)
    · exact Option.noConfusion (show (none : Option Int) = some M from hM)
    · have hv2 : idv = some v := hv
      subst hv2
      exact ⟨_, (collectOne_minmax_ok
        (show collectMinMax acc none none = .ok acc from rfl)).trans (hsingle acc v hvr)⟩
    · exact Option.noConfusion (show (none : Option Int) = some m from hm)
  · -- minID nil, maxID set: simultaneity error
    exact ⟨_, collectOne_minmax_error rfl⟩
  · -- minID set, maxID nil: simultaneity error
    exact ⟨_, collectOne_minmax_error rfl⟩
  · -- both set
    have hcm : collectMinMax acc (some m) (some M) =
        (if m ≤ 0 ∨ m > 4094
         then .error (ascii "incorrect trunk minID parameter")
         else if M ≤ 0 ∨ M > 4094
         then .error (ascii "incorrect trunk maxID parameter")
         else if M < m
         then .error (ascii "minID is greater than maxID in trunk parameter")
         else .ok (insertRange m (M + 1 - m).toNat acc)) := rfl
    by_cases hm : m ≤ 0 ∨ m > 4094
    · exact ⟨_, collectOne_minmax_error (by rw [hcm, if_pos hm])⟩
    · by_cases hM : M ≤ 0 ∨ M > 4094
      · exact ⟨_, collectOne_minmax_error (by rw [hcm, if_neg hm, if_pos hM])⟩
      · by_cases hMm : M < m
        · exact ⟨_, collectOne_minmax_error (by rw [hcm, if_neg hm, if_neg hM, if_pos hMm])⟩
        · -- the entry must then have a bad single id
          rcases hbad with ⟨m', hm', hr⟩ | ⟨M', hM', hr⟩ | ⟨v, hv, hvr⟩ | ⟨m', M', hm', hM', hr⟩
          · have : m = m' := Option.some.inj hm'
            omega
          · have : M = M' := Option.some.inj hM'
            omega
          · have hv2 : idv = some v := hv
            subst hv2
            refine ⟨_, (collectOne_minmax_ok ?_).trans
              (hsingle (insertRange m (M + 1 - m).toNat acc) v hvr)⟩
            rw [hcm, if_neg hm, if_neg hM, if_neg hMm]
          · have h1 : m = m' := Option.some.inj hm'
            have h2 : M = M' := Option.some.inj hM'
            omega

/-- A list containing an invalid entry makes the whole fold fail. -/
lemma foldlM_error_of_bad :
    ∀ (items : List VlanTrunk) (acc : List Int),
      (∃ t ∈ items, claimBadEntry t) →
      ∃ e, items.foldlM collectOne acc = .error e := by
  intro items
  induction items with
  | nil =>
    intro acc h
    obtain ⟨t, ht, _⟩ := h
    exact absurd ht (List.not_mem_nil t)
  | cons x rest ih =>
    intro acc h
    obtain ⟨t, ht, hbad⟩ := h
    rcases List.mem_cons.mp ht with heq | hmem
    · subst heq
      obtain ⟨e, he⟩ := collectOne_error_of_bad hbad acc
      refine ⟨e, ?_⟩
      rw [List.foldlM_cons, he]
      rfl
    · cases hco : collectOne acc x with
      | error e =>
        refine ⟨e, ?_⟩
        rw [List.foldlM_cons, hco]
        rfl
      | ok acc' =>
        obtain ⟨e, he⟩ := ih acc' ⟨t, hmem, hbad⟩
        refine ⟨e, ?_⟩
        rw [List.foldlM_cons, hco]
        exact he

end Bridge

namespace NFT

/-- The 16-character hash calls never hit the panic branch. -/
lemma mustFormat16_ok (toHash : GoStr) :
    IPUtils.MustFormatHashWithPrefix 16 [] toHash =
      .ok ((IPUtils.hexEncode (SHA512.sha512 toHash)).take 16) := by
  unfold IPUtils.MustFormatHashWithPrefix
  rw [if_neg (by decide), List.nil_append]

/-- `hashForNetwork` is the first 16 hex characters of the network hash. -/
lemma hashForNetwork_eq (network : GoStr) :
    hashForNetwork network = (IPUtils.hexEncode (SHA512.sha512 network)).take 16 := by
  unfold hashForNetwork
  rw [mustFormat16_ok]
  rfl

/-- `hashForNetwork` has 16 characters. -/
lemma hashForNetwork_length (network : GoStr) : (hashForNetwork network).length = 16 := by
  rw [hashForNetwork_eq, List.length_take, IPUtils.hexEncode_sha512_length]
  decide

/-- `hashForInstance` has 33 characters (16 + 1 + 16). -/
lemma hashForInstance_length (n f i : GoStr) : (hashForInstance n f i).length = 33 := by
  unfold hashForInstance
  rw [List.length_append, List.length_append, hashForNetwork_length]
  have h2 : (mustOk (IPUtils.MustFormatHashWithPrefix 16 []
      (f ++ ascii ":" ++ i))).length = 16 := by
    rw [mustFormat16_ok]
    show ((IPUtils.hexEncode (SHA512.sha512 (f ++ ascii ":" ++ i))).take 16).length = 16
    rw [List.length_take, IPUtils.hexEncode_sha512_length]
    decide
  rw [h2]
  decide

/-- The instance hash is a prefix of the instance comment. -/
lemma hash_isPrefix_comment (n f i : GoStr) :
    hashForInstance n f i <+: commentForInstance n f i := by
  unfold commentForInstance
  simp only [List.append_assoc]
  rw [List.take_append_eq_append_take,
    List.take_of_length_le (by rw [hashForInstance_length]; decide)]
  exact List.prefix_append _ _

/-- A prefix of `q ++ t` with the length of `q` is `q` itself. -/
lemma prefix_eq_of_prefix_append {p q t : GoStr} (hpl : p.length = q.length)
    (h : p <+: q ++ t) : p = q := by
  rw [List.prefix_iff_eq_take, hpl, List.take_left] at h
  exact h

/-- `strings.HasPrefix` agrees with list prefixes. -/
lemma goHasPfx_iff {s p : GoStr} : goHasPfx s p = true ↔ p <+: s := by
  unfold goHasPfx
  rw [beq_iff_eq, List.prefix_iff_eq_take]
  exact ⟨fun h => h.symm, fun h => h.symm⟩

/-- A rule commented for one instance matches another instance's hash
exactly when the two hashes coincide. -/
lemma ruleMatches_comment_iff {n f i n2 f2 i2 : GoStr} {h : Nat} {ipn : IPAM.IPNet} :
    ruleMatches (hashForInstance n f i)
      ⟨h, some (commentForInstance n2 f2 i2), ipn⟩ = true ↔
    hashForInstance n f i = hashForInstance n2 f2 i2 := by
  unfold ruleMatches
  rw [goHasPfx_iff]
  constructor
  · intro hp
    obtain ⟨t, ht⟩ := hash_isPrefix_comment n2 f2 i2
    rw [← ht] at hp
    exact prefix_eq_of_prefix_append
      (by rw [hashForInstance_length, hashForInstance_length]) hp
  · intro he
    rw [he]
    exact hash_isPrefix_comment n2 f2 i2

/-- Deleting exactly the found rules filters out exactly the matching ones
(using handle uniqueness). -/
lemma deleteRules_eq_filter {rules : List NfRule} (hu : uniqHandles rules)
    (pfx : GoStr) :
    deleteRules rules (findRules rules pfx) =
      rules.filter (fun r => !ruleMatches pfx r) := by
  unfold deleteRules findRules
  apply List.filter_congr
  intro r hr
  cases hm : ruleMatches pfx r
  · have hany : (rules.filter (ruleMatches pfx)).any
        (fun d => d.handle == r.handle) = false := by
      rw [List.any_eq_false]
      intro d hd hbeq
      obtain ⟨hdr, hdm⟩ := List.mem_filter.mp hd
      have hh : d.handle = r.handle := by
        rwa [beq_iff_eq] at hbeq
      by_cases hdeq : d = r
      · subst hdeq
        rw [hm] at hdm
        exact Bool.noConfusion hdm
      · exact List.Pairwise.forall (fun a b hab => Ne.symm hab) hu hdr hr hdeq hh
    rw [hany]
  · have hany : (rules.filter (ruleMatches pfx)).any
        (fun d => d.handle == r.handle) = true := by
      rw [List.any_eq_true]
      exact ⟨r, List.mem_filter.mpr ⟨hr, hm⟩, by rw [beq_iff_eq]⟩
    rw [hany]

/-- `teardownIPMasqNFTables` keeps exactly the rules not matching the
instance hash, in order. -/
lemma teardown_eq_filter {rules : List NfRule} (hu : uniqHandles rules)
    (n f i : GoStr) :
    teardownIPMasqNFTables rules n f i =
      rules.filter (fun r => !ruleMatches (hashForInstance n f i) r) := by
  unfold teardownIPMasqNFTables
  by_cases hm : findRules rules (hashForInstance n f i) = []
  · rw [if_pos hm]
    unfold findRules at hm
    have hall := List.filter_eq_nil_iff.mp hm
    symm
    rw [List.filter_eq_self]
    intro r hr
    cases hb : ruleMatches (hashForInstance n f i) r
    · rfl
    · exact absurd hb (hall r hr)
  · rw [if_neg hm]
    exact deleteRules_eq_filter hu _

/-- Every rule added by `newRules` carries the instance comment, and its
handle lies in `[nh, nh + |ipNs|)`. -/
lemma newRules_mem {n f i : GoStr} :
    ∀ (ipNs : List IPAM.IPNet) (nh : Nat), ∀ r ∈ newRules n f i ipNs nh,
      r.comment = some (commentForInstance n f i) ∧
      nh ≤ r.handle ∧ r.handle < nh + ipNs.length := by
  intro ipNs
  induction ipNs with
  | nil =>
    intro nh r hr
    exact absurd hr (List.not_mem_nil r)
  | cons ipn rest ih =>
    intro nh r hr
    rcases List.mem_cons.mp hr with heq | hmem
    · subst heq
      exact ⟨rfl, le_rfl, by simp⟩
    · obtain ⟨hc, hlo, hhi⟩ := ih (nh + 1) r hmem
      refine ⟨hc, by omega, ?_⟩
      simp only [List.length_cons]
      omega

/-- Every rule added by `newRules` matches its own instance hash. -/
lemma newRules_matches {n f i : GoStr} {ipNs : List IPAM.IPNet} {nh : Nat} :
    ∀ r ∈ newRules n f i ipNs nh, ruleMatches (hashForInstance n f i) r = true := by
  intro r hr
  obtain ⟨hc, _, _⟩ := newRules_mem ipNs nh r hr
  rcases r with ⟨h, c, ipn⟩
  simp only at hc
  subst hc
  exact ruleMatches_comment_iff.mpr rfl

/-- The handles of `newRules` are pairwise distinct. -/
lemma uniqHandles_newRules {n f i : GoStr} :
    ∀ (ipNs : List IPAM.IPNet) (nh : Nat), uniqHandles (newRules n f i ipNs nh) := by
  intro ipNs
  induction ipNs with
  | nil => intro nh; exact List.Pairwise.nil
  | cons ipn rest ih =>
    intro nh
    refine List.Pairwise.cons ?_ (ih (nh + 1))
    intro r hr
    obtain ⟨_, hlo, _⟩ := newRules_mem rest (nh + 1) r hr
    show nh ≠ r.handle
    omega

/-- After a setup call, the rules matching the instance hash are exactly the
newly added ones. -/
lemma findRules_setup {rules : List NfRule} (hu : uniqHandles rules)
    (ipNs : List IPAM.IPNet) (n f i : GoStr) (nh : Nat) :
    findRules (setupIPMasqNFTables rules ipNs n f i nh) (hashForInstance n f i) =
      newRules n f i ipNs nh := by
  show (deleteRules rules (findRules rules (hashForInstance n f i)) ++
      newRules n f i ipNs nh).filter (ruleMatches (hashForInstance n f i)) = _
  rw [List.filter_append, deleteRules_eq_filter hu, List.filter_filter]
  have h1 : (rules.filter
      (fun a => ruleMatches (hashForInstance n f i) a &&
        !ruleMatches (hashForInstance n f i) a)) = [] := by
    rw [List.filter_eq_nil_iff]
    intro a _
    cases hb : ruleMatches (hashForInstance n f i) a <;> simp [hb]
  rw [h1, List.nil_append, List.filter_eq_self.mpr newRules_matches]

/-- Setup preserves handle uniqueness and bounds when the fresh handle is
above all existing ones. -/
lemma uniqHandles_setup {rules : List NfRule} (hu : uniqHandles rules)
    {nh : Nat} (hb : handlesBelow rules nh) (ipNs : List IPAM.IPNet) (n f i : GoStr) :
    uniqHandles (setupIPMasqNFTables rules ipNs n f i nh) ∧
    handlesBelow (setupIPMasqNFTables rules ipNs n f i nh) (nh + ipNs.length) := by
  constructor
  · show List.Pairwise _ (deleteRules rules _ ++ newRules n f i ipNs nh)
    rw [List.pairwise_append]
    refine ⟨List.Pairwise.filter _ hu, uniqHandles_newRules ipNs nh, ?_⟩
    intro a ha b hbmem
    have har : a ∈ rules := List.mem_of_mem_filter ha
    have h1 : a.handle < nh := hb a har
    obtain ⟨_, h2, _⟩ := newRules_mem ipNs nh b hbmem
    omega
  · intro r hr
    rcases List.mem_append.mp hr with h | h
    · have : r ∈ rules := List.mem_of_mem_filter h
      have := hb r this
      omega
    · obtain ⟨_, _, h3⟩ := newRules_mem ipNs nh r h
      omega

end NFT

/-! # Claim theorems -/

/-- **C4 counterexample**: at capacity `N = 0` the claim fails: the "next"
`AllocateNext` call after the (zero) successful ones does not return a
failure value `(0, false)` — the embedded call produces the `rand.IntN`
panic instead (see C9). -/
theorem claim_C4_counterexample :
    IPAM.AllocateNext (IPAM.NewAllocationMap 0 []) 0 =
      .error ⟨ascii "invalid argument to IntN"⟩ ∧
    IPAM.AllocateNext (IPAM.NewAllocationMap 0 []) 0 ≠
      .ok (IPAM.NewAllocationMap 0 [], none) := by
  constructor
  · rfl
  · intro h
    rw [show IPAM.AllocateNext (IPAM.NewAllocationMap 0 []) 0 =
        .error ⟨ascii "invalid argument to IntN"⟩ from rfl] at h
    exact Except.noConfusion h

/-- **C4 (amended)**: for every Bit Allocation Store of capacity `N ≥ 1`:
a run of `N` `AllocateNext` calls from a fresh store all succeed, returning
`N` distinct offsets in `[0, N)`, after which exactly `N` bits are set and
the next call fails (returns no offset); moreover every successful
`AllocateNext` returns an offset in `[0, max)` that was previously unset and
is set afterwards, and `AllocateNext` fails whenever `count ≥ max` holds in
an invariant-respecting state with positive capacity. -/
theorem claim_C4_amended :
    (∀ (N : Nat) (tag : GoStr) (rnds : List Nat), 1 ≤ N → rnds.length = N →
      ∃ rf offs, IPAM.runAllocs (IPAM.NewAllocationMap N tag) rnds = .ok (rf, offs) ∧
        offs.length = N ∧ offs.Nodup ∧ (∀ o ∈ offs, o < N) ∧
        IPAM.countBits rf.allocated = N ∧ rf.count = N ∧
        ∀ rnd, IPAM.AllocateNext rf rnd = .ok (rf, none)) ∧
    (∀ (r r' : IPAM.AllocationBitmap) (rnd off : Nat),
      IPAM.AllocateNext r rnd = .ok (r', some off) →
      off < r.max ∧ r.allocated.testBit off = false ∧
        r'.allocated.testBit off = true) ∧
    (∀ (r : IPAM.AllocationBitmap) (rnd : Nat), 0 < r.max → IPAM.Inv r →
      r.max ≤ r.count → IPAM.AllocateNext r rnd = .ok (r, none)) := by
  refine ⟨?_, ?_, ?_⟩
  · intro N tag rnds hN hlen
    have hinv0 : IPAM.Inv (IPAM.NewAllocationMap N tag) := by
      constructor
      · rfl
      · exact Nat.pos_pow_of_pos N (by norm_num)
    have hcap : (IPAM.NewAllocationMap N tag).count + rnds.length ≤
        (IPAM.NewAllocationMap N tag).max := by
      show 0 + rnds.length ≤ N
      omega
    obtain ⟨rf, offs, hrun, hlen2, hmax, _, hinvf, hcount, hprops, hnodup, _⟩ :=
      IPAM.runAllocs_ok hinv0 rnds hcap
    have hcountN : rf.count = N := by
      rw [hcount]
      show 0 + rnds.length = N
      omega
    refine ⟨rf, offs, hrun, by omega, hnodup, ?_, ?_, hcountN, ?_⟩
    · intro o ho
      exact (hprops o ho).1
    · rw [← hinvf.1, hcountN]
    · intro rnd
      apply IPAM.allocateNext_full _ hinvf
      · rw [hmax]
        show N ≤ rf.count
        omega
      · rw [hmax]
        show 0 < N
        omega
  · intro r r' rnd off h
    obtain ⟨hoff, hclear, hr'⟩ := IPAM.allocateNext_some h
    refine ⟨hoff, hclear, ?_⟩
    rw [hr']
    show (IPAM.setBit r.allocated off).testBit off = true
    rw [IPAM.testBit_setBit]
    simp
  · intro r rnd hm hinv hge
    exact IPAM.allocateNext_full hm hinv hge

/-- **C4 witness**: the amended claim at capacity 2 with random draws
`[0, 0]`, and the failure clause at a concrete full store. -/
theorem claim_C4_witness :
    (∃ rf offs, IPAM.runAllocs (IPAM.NewAllocationMap 2 []) [0, 0] = .ok (rf, offs) ∧
      offs.length = 2 ∧ offs.Nodup ∧ (∀ o ∈ offs, o < 2) ∧
      IPAM.countBits rf.allocated = 2 ∧ rf.count = 2 ∧
      ∀ rnd, IPAM.AllocateNext rf rnd = .ok (rf, none)) ∧
    IPAM.AllocateNext ⟨1, [], 1, 1⟩ 0 = .ok (⟨1, [], 1, 1⟩, none) :=
  ⟨claim_C4_amended.1 2 [] [0, 0] (by decide) rfl,
   claim_C4_amended.2.2 ⟨1, [], 1, 1⟩ 0 (by decide) ⟨by decide, by decide⟩ (by decide)⟩

/-- **C6**: Snapshot followed by Restore with the returned tag and bytes on a
fresh store of the same capacity and rangeSpec succeeds, and the restored
store answers `Has(offset)` exactly as the original for every offset. -/
theorem claim_C6 :
    ∀ r : IPAM.AllocationBitmap,
      (IPAM.Restore (IPAM.NewAllocationMap r.max r.rangeSpec) (IPAM.Snapshot r).1
        (IPAM.Snapshot r).2).2 = none ∧
      ∀ off : Nat,
        IPAM.Has (IPAM.Restore (IPAM.NewAllocationMap r.max r.rangeSpec)
          (IPAM.Snapshot r).1 (IPAM.Snapshot r).2).1 off = IPAM.Has r off := by
  intro r
  have hres : IPAM.Restore (IPAM.NewAllocationMap r.max r.rangeSpec) (IPAM.Snapshot r).1
      (IPAM.Snapshot r).2 =
      ({ max := r.max, rangeSpec := r.rangeSpec,
         count := IPAM.countBits (IPAM.bytesToNat (IPAM.natToBytes r.allocated)),
         allocated := IPAM.bytesToNat (IPAM.natToBytes r.allocated) }, none) := by
    unfold IPAM.Restore IPAM.Snapshot IPAM.NewAllocationMap
    rw [if_neg (by simp)]
  rw [hres]
  refine ⟨rfl, ?_⟩
  intro off
  show (IPAM.bytesToNat (IPAM.natToBytes r.allocated)).testBit off =
    r.allocated.testBit off
  rw [IPAM.bytesToNat_natToBytes]

/-- **C7**: Restore with a tag different from the store's rangeSpec returns
the mismatch error and leaves the state unchanged; with the matching tag it
succeeds, installs the decoded bit vector, and recomputes `count` as its
popcount. -/
theorem claim_C7 :
    ∀ (r : IPAM.AllocationBitmap) (tag : GoStr) (data : List Nat),
      (tag ≠ r.rangeSpec → IPAM.Restore r tag data =
        (r, some (ascii "the provided range does not match the current range"))) ∧
      (tag = r.rangeSpec →
        (IPAM.Restore r tag data).2 = none ∧
        (IPAM.Restore r tag data).1.allocated = IPAM.bytesToNat data ∧
        (IPAM.Restore r tag data).1.count = IPAM.countBits (IPAM.bytesToNat data) ∧
        (IPAM.Restore r tag data).1.max = r.max ∧
        (IPAM.Restore r tag data).1.rangeSpec = r.rangeSpec) := by
  intro r tag data
  constructor
  · intro h
    unfold IPAM.Restore
    rw [if_pos (Ne.symm h)]
  · intro h
    unfold IPAM.Restore
    rw [if_neg (by simp [h])]
    exact ⟨rfl, rfl, rfl, rfl, rfl⟩

/-- **C7 witness**: both branches at concrete stores — a mismatched tag on a
store tagged `"r"`, and the matching (empty) tag with bytes `[5]`. -/
theorem claim_C7_witness :
    IPAM.Restore (IPAM.NewAllocationMap 3 (ascii "r")) [49] [5] =
      (IPAM.NewAllocationMap 3 (ascii "r"),
        some (ascii "the provided range does not match the current range")) ∧
    ((IPAM.Restore (IPAM.NewAllocationMap 3 []) [] [5]).2 = none ∧
      (IPAM.Restore (IPAM.NewAllocationMap 3 []) [] [5]).1.allocated =
        IPAM.bytesToNat [5] ∧
      (IPAM.Restore (IPAM.NewAllocationMap 3 []) [] [5]).1.count =
        IPAM.countBits (IPAM.bytesToNat [5]) ∧
      (IPAM.Restore (IPAM.NewAllocationMap 3 []) [] [5]).1.max =
        (IPAM.NewAllocationMap 3 []).max ∧
      (IPAM.Restore (IPAM.NewAllocationMap 3 []) [] [5]).1.rangeSpec =
        (IPAM.NewAllocationMap 3 []).rangeSpec) :=
  ⟨(claim_C7 (IPAM.NewAllocationMap 3 (ascii "r")) [49] [5]).1 (by decide),
   (claim_C7 (IPAM.NewAllocationMap 3 []) [] [5]).2 rfl⟩

/-- **C9**: on a store of capacity `max = 0` — as `NewCIDRRange` builds for
any subnet whose `RangeSize` is 0 — `AllocateNext` does not return a failure
value: the exhaustion check `count > max` does not fire (`0 > 0` is false)
and the random-scan strategy reaches `rand.IntN(0)`, which panics. -/
theorem claim_C9 :
    (∀ (tag : GoStr) (rnd : Nat),
      IPAM.AllocateNext (IPAM.NewAllocationMap 0 tag) rnd =
        .error ⟨ascii "invalid argument to IntN"⟩) ∧
    (∀ cidr : IPAM.IPNet, IPAM.RangeSize cidr = 0 →
      (IPAM.NewCIDRRange cidr).max = 0 ∧
      (IPAM.NewCIDRRange cidr).alloc = IPAM.NewAllocationMap 0 (IPAM.cidrTag cidr)) := by
  constructor
  · intro tag rnd
    rfl
  · intro cidr h
    unfold IPAM.NewCIDRRange
    rw [h]
    simp

/-- **C9 witness**: the `RangeSize = 0` clause at the IPv4 subnet `::/0`
(mask size `(0, 32)`), whose `RangeSize` is 0 under the embedded code. -/
theorem claim_C9_witness :
    (IPAM.NewCIDRRange ⟨0, 0, 32⟩).max = 0 ∧
    (IPAM.NewCIDRRange ⟨0, 0, 32⟩).alloc =
      IPAM.NewAllocationMap 0 (IPAM.cidrTag ⟨0, 0, 32⟩) :=
  claim_C9.2 ⟨0, 0, 32⟩ (by decide)

/-- **C3 (code bug)**: the source's `echo1` tests `err != nil` (inverted from
the intended `err == nil`), so on a successful read — `err = none` — the
early no-write return is unreachable and the sysctl file is rewritten even
when its trimmed content is already `"1"`.  Both forwarding enablers
therefore write unconditionally on every readable file, contradicting the
claim (and the spec's `write "1" if not already set`). -/
theorem claim_C3_code_behavior :
    (∀ content : GoStr, IPForward.EnableIP4Forward ⟨content, none⟩ =
      .write (ascii "1")) ∧
    (∀ content : GoStr, IPForward.EnableIP6Forward ⟨content, none⟩ =
      .write (ascii "1")) ∧
    IPForward.trimSpace (ascii "1\n") = ascii "1" ∧
    IPForward.echo1 ⟨ascii "1\n", none⟩ = .write (ascii "1") := by
  refine ⟨?_, ?_, by decide, ?_⟩
  · intro content
    show IPForward.echo1 ⟨content, none⟩ = .write (ascii "1")
    unfold IPForward.echo1
    rw [if_neg (by simp)]
  · intro content
    show IPForward.echo1 ⟨content, none⟩ = .write (ascii "1")
    unfold IPForward.echo1
    rw [if_neg (by simp)]
  · unfold IPForward.echo1
    rw [if_neg (by simp)]

/-- **C8**: the trunk entry `{minID: 10, maxID: 12}` expands to `{10,11,12}`;
any entry with a present `minID`, `maxID` or single `id` outside `1–4094`,
or with `minID > maxID`, makes `collectVlanTrunk` return an error (and an
`Except.error` carries no id list). -/
theorem claim_C8 :
    Bridge.collectVlanTrunk (some [⟨some 10, some 12, none⟩]) = .ok (some [10, 11, 12]) ∧
    (∀ items : List Bridge.VlanTrunk, (∃ t ∈ items, Bridge.claimBadEntry t) →
      ∃ e, Bridge.collectVlanTrunk (some items) = .error e) := by
  constructor
  · rfl
  · intro items h
    obtain ⟨e, he⟩ := Bridge.foldlM_error_of_bad items [] h
    refine ⟨e, ?_⟩
    show (match items.foldlM Bridge.collectOne [] with
          | .error e => (Except.error e : Except GoStr (Option (List Int)))
          | .ok l => .ok (if l = [] then none else some l)) = .error e
    rw [he]

/-- **C8 witness**: the rejection clause at the out-of-range entry
`{minID: 5000, maxID: 5001}` and at the inverted pair `{minID: 20, maxID: 10}`. -/
theorem claim_C8_witness :
    (∃ e, Bridge.collectVlanTrunk (some [⟨some 5000, some 5001, none⟩]) = .error e) ∧
    (∃ e, Bridge.collectVlanTrunk (some [⟨some 20, some 10, none⟩]) = .error e) :=
  ⟨claim_C8.2 [⟨some 5000, some 5001, none⟩]
      ⟨⟨some 5000, some 5001, none⟩, by simp, Or.inl ⟨5000, rfl, by omega⟩⟩,
   claim_C8.2 [⟨some 20, some 10, none⟩]
      ⟨⟨some 20, some 10, none⟩, by simp,
        Or.inr (Or.inr (Or.inr ⟨20, 10, rfl, rfl, by omega⟩))⟩⟩

/-- **C1 counterexample**: the claim's host-only cases are wrong on the code:
`RangeSize` of an IPv4 `/32` is 1 (not 0) and of a `/31` is 2 (not 0); the
IPv6 `/128` and `/127` cases give 1 and 2 as well.  The zero branch instead
fires for 31 (resp. 127) or more host bits, i.e. `/0` and `/1` masks. -/
theorem claim_C1_counterexample :
    IPAM.RangeSize ⟨IPAM.v4 10 0 0 1, 32, 32⟩ = 1 ∧
    IPAM.RangeSize ⟨IPAM.v4 10 0 0 1, 32, 32⟩ ≠ 0 ∧
    IPAM.RangeSize ⟨IPAM.v4 10 0 0 0, 31, 32⟩ = 2 ∧
    IPAM.RangeSize ⟨1, 128, 128⟩ = 1 ∧
    IPAM.RangeSize ⟨0, 127, 128⟩ = 2 ∧
    IPAM.RangeSize ⟨0, 1, 32⟩ = 0 ∧
    IPAM.RangeSize ⟨0, 1, 128⟩ = 0 := by
  refine ⟨by decide, by decide, by decide, by decide, by decide, by decide, by decide⟩

/-- **C1 (amended)**: `RangeSize` returns 0 exactly when the subnet has 31
or more host bits (IPv4) resp. 127 or more (IPv6) — i.e. for `/0` and `/1`
masks, not for host-only subnets; otherwise it returns `2^(hostbits)`,
except that IPv6 subnets with 16 or more host bits are capped at 65536.
`RangeSize` of `192.168.0.0/24` is 256, and `NewCIDRRange` over that subnet
yields `max == 254` with base IP `192.168.0.1`. -/
theorem claim_C1_amended :
    (∀ s : IPAM.IPNet, s.bits = 32 →
      IPAM.RangeSize s = if 32 - s.ones ≥ 31 then 0 else 2 ^ (32 - s.ones)) ∧
    (∀ s : IPAM.IPNet, s.bits = 128 →
      IPAM.RangeSize s =
        if 128 - s.ones ≥ 127 then 0
        else if 128 - s.ones ≥ 16 then 65536
        else 2 ^ (128 - s.ones)) ∧
    IPAM.RangeSize ⟨IPAM.v4 192 168 0 0, 24, 32⟩ = 256 ∧
    (IPAM.NewCIDRRange ⟨IPAM.v4 192 168 0 0, 24, 32⟩).max = 254 ∧
    (IPAM.NewCIDRRange ⟨IPAM.v4 192 168 0 0, 24, 32⟩).base = IPAM.v4 192 168 0 1 := by
  refine ⟨?_, ?_, by decide, by decide, by decide⟩
  · intro s hb
    obtain ⟨ip, ones, bits⟩ := s
    have hb2 : bits = 32 := hb
    subst hb2
    show IPAM.RangeSize ⟨ip, ones, 32⟩ = if 32 - ones ≥ 31 then 0 else 2 ^ (32 - ones)
    by_cases hc : 31 ≤ 32 - ones
    · rw [if_pos hc]
      show (if (32 = 32 ∧ 32 - ones ≥ 31) ∨ (32 = 128 ∧ 32 - ones ≥ 127) then 0
            else if 32 = 128 ∧ 32 - ones ≥ 16 then 2 ^ 16 else 2 ^ (32 - ones)) = 0
      rw [if_pos (Or.inl ⟨rfl, hc⟩)]
    · rw [if_neg hc]
      show (if (32 = 32 ∧ 32 - ones ≥ 31) ∨ (32 = 128 ∧ 32 - ones ≥ 127) then 0
            else if 32 = 128 ∧ 32 - ones ≥ 16 then 2 ^ 16 else 2 ^ (32 - ones)) =
        2 ^ (32 - ones)
      rw [if_neg (by omega), if_neg (by omega)]
  · intro s hb
    obtain ⟨ip, ones, bits⟩ := s
    have hb2 : bits = 128 := hb
    subst hb2
    show IPAM.RangeSize ⟨ip, ones, 128⟩ =
      if 128 - ones ≥ 127 then 0
      else if 128 - ones ≥ 16 then 65536 else 2 ^ (128 - ones)
    by_cases h127 : 127 ≤ 128 - ones
    · rw [if_pos h127]
      show (if (128 = 32 ∧ 128 - ones ≥ 31) ∨ (128 = 128 ∧ 128 - ones ≥ 127) then 0
            else if 128 = 128 ∧ 128 - ones ≥ 16 then 2 ^ 16 else 2 ^ (128 - ones)) = 0
      rw [if_pos (Or.inr ⟨rfl, h127⟩)]
    · rw [if_neg h127]
      by_cases h16 : 16 ≤ 128 - ones
      · rw [if_pos h16]
        show (if (128 = 32 ∧ 128 - ones ≥ 31) ∨ (128 = 128 ∧ 128 - ones ≥ 127) then 0
              else if 128 = 128 ∧ 128 - ones ≥ 16 then 2 ^ 16
              else 2 ^ (128 - ones)) = 65536
        rw [if_neg (by omega), if_pos ⟨rfl, h16⟩]
        norm_num
      · rw [if_neg h16]
        show (if (128 = 32 ∧ 128 - ones ≥ 31) ∨ (128 = 128 ∧ 128 - ones ≥ 127) then 0
              else if 128 = 128 ∧ 128 - ones ≥ 16 then 2 ^ 16
              else 2 ^ (128 - ones)) = 2 ^ (128 - ones)
        rw [if_neg (by omega), if_neg (by omega)]

/-- **C1 witness**: the amended equations at the concrete subnets
`10.0.0.0/24` (IPv4, mask size `(24, 32)`) and `::/16` (IPv6). -/
theorem claim_C1_witness :
    IPAM.RangeSize ⟨0, 24, 32⟩ = (if 32 - 24 ≥ 31 then 0 else 2 ^ (32 - 24)) ∧
    IPAM.RangeSize ⟨0, 16, 128⟩ =
      (if 128 - 16 ≥ 127 then 0 else if 128 - 16 ≥ 16 then 65536
       else 2 ^ (128 - 16)) :=
  ⟨claim_C1_amended.1 ⟨0, 24, 32⟩ rfl, claim_C1_amended.2.1 ⟨0, 16, 128⟩ rfl⟩

set_option maxRecDepth 100000 in
/-- **C2 counterexample**: the chain name is *not* `PETA-` followed by 28 hex
characters of the SHA-512 hash (that would have 33 characters): at
`name = "a"`, `id = "b"` the produced name differs from the claim's shape. -/
theorem claim_C2_counterexample :
    IPUtils.FormatChainName (ascii "a") (ascii "b") ≠
      .ok (IPUtils.chainNameClaimC2 (ascii "a") (ascii "b")) := by
  intro h
  have h1 : IPUtils.FormatChainName (ascii "a") (ascii "b") =
      .ok ((IPUtils.chainPfx ++
        IPUtils.hexEncode (SHA512.sha512 (ascii "a" ++ ascii "b"))).take 28) := rfl
  rw [h1] at h
  have h2 := Except.ok.inj h
  have h3 : (IPUtils.chainPfx ++
      IPUtils.hexEncode (SHA512.sha512 (ascii "a" ++ ascii "b"))).take 28 ≠
      IPUtils.chainNameClaimC2 (ascii "a") (ascii "b") := by decide
  exact h3 h2

/-- **C2 (amended)**: for every network name and id, `FormatChainName`
returns (without panicking) the string consisting of the literal prefix
`PETA-` followed by the first **23** hexadecimal characters of the SHA-512
hash of `name + id` — 28 characters in total, a deterministic function of
`(name, id)`. -/
theorem claim_C2_amended :
    ∀ name id : GoStr,
      IPUtils.FormatChainName name id =
        .ok (IPUtils.chainPfx ++
          (IPUtils.hexEncode (SHA512.sha512 (name ++ id))).take 23) ∧
      (IPUtils.chainPfx ++
        (IPUtils.hexEncode (SHA512.sha512 (name ++ id))).take 23).length = 28 ∧
      ∀ b ∈ (IPUtils.hexEncode (SHA512.sha512 (name ++ id))).take 23,
        IPUtils.isHexDigitByte b := by
  intro name id
  have hguard : ¬((IPUtils.chainPfx ++ ([] : GoStr)).length ≥ IPUtils.maxChainLen ∨
      IPUtils.maxChainLen > IPUtils.MaxHashLen) := by decide
  have h1 : IPUtils.FormatChainName name id =
      .ok (((IPUtils.chainPfx ++ []) ++
        IPUtils.hexEncode (SHA512.sha512 (name ++ id))).take IPUtils.maxChainLen) := by
    unfold IPUtils.FormatChainName IPUtils.MustFormatChainNameWithPrefix
      IPUtils.MustFormatHashWithPrefix
    rw [if_neg hguard]
  have h2 : (((IPUtils.chainPfx ++ []) ++
      IPUtils.hexEncode (SHA512.sha512 (name ++ id))).take IPUtils.maxChainLen) =
      IPUtils.chainPfx ++ (IPUtils.hexEncode (SHA512.sha512 (name ++ id))).take 23 := by
    rw [List.append_nil, List.take_append_eq_append_take,
      List.take_of_length_le (show IPUtils.chainPfx.length ≤ IPUtils.maxChainLen by decide),
      show IPUtils.maxChainLen - IPUtils.chainPfx.length = 23 from by decide]
  refine ⟨by rw [h1, h2], ?_, ?_⟩
  · rw [List.length_append, List.length_take, IPUtils.hexEncode_sha512_length,
      show IPUtils.chainPfx.length = 5 from by decide]
    omega
  · intro b hb
    exact IPUtils.hexEncode_hexdigits _ (SHA512.sha512_bytes_lt _) b
      (List.take_subset _ _ hb)

set_option maxRecDepth 100000 in
/-- **C2 witness**: the hex-character clause of the amended claim at
`name = "a"`, `id = "b"`, applied to the first digest character. -/
theorem claim_C2_witness :
    IPUtils.isHexDigitByte 50 :=
  (claim_C2_amended (ascii "a") (ascii "b")).2.2 50 (by decide)

/-- **C5**: nftables masquerade teardown for `(network, ifName, id)` removes
from `masq_checks` exactly the rules whose comment starts with that
identity's hash prefix, keeping every other rule in place; after a setup
call the rules matching the identity's hash are exactly the freshly added
ones — so installing twice (stale rules deleted first) leaves exactly one
rule set per identity — and a rule commented for a different identity with
a different hash survives teardown. -/
theorem claim_C5 :
    (∀ (rules : List NFT.NfRule) (n f i : GoStr), NFT.uniqHandles rules →
      NFT.teardownIPMasqNFTables rules n f i =
        rules.filter (fun r => !NFT.ruleMatches (NFT.hashForInstance n f i) r)) ∧
    (∀ (rules : List NFT.NfRule) (ipNs : List IPAM.IPNet) (n f i : GoStr) (nh : Nat),
      NFT.uniqHandles rules →
      NFT.findRules (NFT.setupIPMasqNFTables rules ipNs n f i nh)
        (NFT.hashForInstance n f i) = NFT.newRules n f i ipNs nh) ∧
    (∀ (rules : List NFT.NfRule) (ipNs ipNs2 : List IPAM.IPNet) (n f i : GoStr)
      (nh nh2 : Nat), NFT.uniqHandles rules → NFT.handlesBelow rules nh →
      NFT.findRules (NFT.setupIPMasqNFTables
          (NFT.setupIPMasqNFTables rules ipNs n f i nh) ipNs2 n f i nh2)
        (NFT.hashForInstance n f i) = NFT.newRules n f i ipNs2 nh2) ∧
    (∀ (rules : List NFT.NfRule) (n f i n2 f2 i2 : GoStr) (r : NFT.NfRule),
      NFT.uniqHandles rules → r ∈ rules →
      r.comment = some (NFT.commentForInstance n2 f2 i2) →
      NFT.hashForInstance n f i ≠ NFT.hashForInstance n2 f2 i2 →
      r ∈ NFT.teardownIPMasqNFTables rules n f i) := by
  refine ⟨?_, ?_, ?_, ?_⟩
  · intro rules n f i hu
    exact NFT.teardown_eq_filter hu n f i
  · intro rules ipNs n f i nh hu
    exact NFT.findRules_setup hu ipNs n f i nh
  · intro rules ipNs ipNs2 n f i nh nh2 hu hb
    exact NFT.findRules_setup (NFT.uniqHandles_setup hu hb ipNs n f i).1 ipNs2 n f i nh2
  · intro rules n f i n2 f2 i2 r hu hr hc hne
    rw [NFT.teardown_eq_filter hu n f i]
    apply List.mem_filter.mpr
    refine ⟨hr, ?_⟩
    have hm : NFT.ruleMatches (NFT.hashForInstance n f i) r = false := by
      rcases r with ⟨h, c, ipn⟩
      simp only at hc
      subst hc
      cases hb : NFT.ruleMatches (NFT.hashForInstance n f i)
          ⟨h, some (NFT.commentForInstance n2 f2 i2), ipn⟩
      · rfl
      · exact absurd (NFT.ruleMatches_comment_iff.mp hb) hne
    rw [hm]
    rfl

set_option maxRecDepth 100000 in
/-- **C5 witness**: teardown on the empty chain; setup (twice) from the
empty chain over one subnet; and survival of a rule installed for id `"2"`
under teardown for id `"1"` (distinct hashes checked by computation). -/
theorem claim_C5_witness :
    (NFT.teardownIPMasqNFTables [] [] [] [] =
      List.filter (fun r => !NFT.ruleMatches (NFT.hashForInstance [] [] []) r) []) ∧
    (NFT.findRules (NFT.setupIPMasqNFTables [] [⟨0, 24, 32⟩] [] [] [49] 0)
      (NFT.hashForInstance [] [] [49]) = NFT.newRules [] [] [49] [⟨0, 24, 32⟩] 0) ∧
    (NFT.findRules (NFT.setupIPMasqNFTables
        (NFT.setupIPMasqNFTables [] [⟨0, 24, 32⟩] [] [] [49] 0) [⟨0, 24, 32⟩] [] [] [49] 7)
      (NFT.hashForInstance [] [] [49]) = NFT.newRules [] [] [49] [⟨0, 24, 32⟩] 7) ∧
    ⟨5, some (NFT.commentForInstance [] [] [50]), ⟨0, 24, 32⟩⟩ ∈
      NFT.teardownIPMasqNFTables
        [⟨5, some (NFT.commentForInstance [] [] [50]), ⟨0, 24, 32⟩⟩] [] [] [49] :=
  ⟨claim_C5.1 [] [] [] [] List.Pairwise.nil,
   claim_C5.2.1 [] [⟨0, 24, 32⟩] [] [] [49] 0 List.Pairwise.nil,
   claim_C5.2.2.1 [] [⟨0, 24, 32⟩] [⟨0, 24, 32⟩] [] [] [49] 0 7 List.Pairwise.nil
     (fun r hr => absurd hr (List.not_mem_nil r)),
   claim_C5.2.2.2 [⟨5, some (NFT.commentForInstance [] [] [50]), ⟨0, 24, 32⟩⟩]
     [] [] [49] [] [] [50] ⟨5, some (NFT.commentForInstance [] [] [50]), ⟨0, 24, 32⟩⟩
     (List.pairwise_singleton _ _) (List.mem_singleton.mpr rfl) rfl (by decide)⟩

set_option maxRecDepth 1000000 in
/-- **C10 counterexample**: over the IPv6 subnet `::/16` (more than 2
addresses, 112 host bits), after allocating the base IP `::1`, `Has` is also
true of `::1 + 2^64` — `calculateIPOffset` truncates the 2^64 difference to
the `int64` 0 — yet `ForEach` hands out only `::1`; so the emitted set and
the `Has` set differ. -/
theorem claim_C10_counterexample :
    2 < IPAM.RangeSize ⟨0, 16, 128⟩ ∧
    (((IPAM.NewCIDRRange ⟨0, 16, 128⟩).Allocate 1).1).Has (1 + 2 ^ 64) = true ∧
    ¬some (1 + 2 ^ 64) ∈ (((IPAM.NewCIDRRange ⟨0, 16, 128⟩).Allocate 1).1).forEachIPs := by
  refine ⟨by decide, by decide, by decide⟩

/-- **C10 (amended)**: for every reachable CIDR Range over a canonical
(aligned, genuinely IPv4/IPv6) subnet with more than 2 addresses and at most
64 host bits, the set of IPs passed to the `ForEach` callback equals exactly
the set of IPs for which `Has` returns true, and the callback never receives
the `nil` IP.  (For IPv6 subnets with more than 64 host bits the agreement
can fail, because `calculateIPOffset` truncates the address difference to an
`int64`; for subnets of at most 2 addresses the base is not shifted and the
reconstruction differs — as the claim itself cautions.) -/
theorem claim_C10_amended :
    ∀ r : IPAM.Range, IPAM.RangeReachable r →
      (r.net.bits = 32 ∨ r.net.bits = 128) →
      2 < IPAM.RangeSize r.net →
      r.net.bits - r.net.ones ≤ 64 →
      r.net.aligned →
      r.net.ip < 2 ^ 128 →
      (∀ ip : Nat, some ip ∈ r.forEachIPs ↔ r.Has ip = true) ∧
      none ∉ r.forEachIPs := by
  intro r hreach hb hsz hh64 halign hip
  exact IPAM.forEach_iff (IPAM.rangeReachable_inv hreach) hb hsz hh64 halign hip

set_option maxRecDepth 1000000 in
/-- **C10 witness**: the amended claim at the range over `10.0.0.0/24` after
allocating `10.0.0.1`. -/
theorem claim_C10_witness :
    (∀ ip : Nat, some ip ∈ (((IPAM.NewCIDRRange ⟨IPAM.v4 10 0 0 0, 24, 32⟩).Allocate
        (IPAM.v4 10 0 0 1)).1).forEachIPs ↔
      (((IPAM.NewCIDRRange ⟨IPAM.v4 10 0 0 0, 24, 32⟩).Allocate
        (IPAM.v4 10 0 0 1)).1).Has ip = true) ∧
    none ∉ (((IPAM.NewCIDRRange ⟨IPAM.v4 10 0 0 0, 24, 32⟩).Allocate
        (IPAM.v4 10 0 0 1)).1).forEachIPs :=
  claim_C10_amended _ (IPAM.RangeReachable.allocate _ (IPAM.RangeReachable.new _))
    (Or.inl (by decide)) (by decide) (by decide)
    (by unfold IPAM.IPNet.aligned; decide) (by decide)
